import Mathlib

/-!
Verification development for the adaptive refinement tree of
`src/RefinementTree.cpp` (namespace `prlearn`).

The development is a shallow embedding of the source file.  It has three
layers:

* `prlearn.ReadModel` — the read path (`node_t::get_leaf`,
  `RefinementTree::lookup`, `RefinementTree::getBestQ`) and the label
  index manipulation of `RefinementTree::update`.  Leaf predictions are
  modelled by `DReal`, a rational number extended with the IEEE special
  values `nan`, `inf`, `ninf`, because the read path branches on
  `std::isinf` / `std::isnan` and returns NaN/infinite sentinels.

* `prlearn` core — the leaf-update path (`node_t::update`): running
  statistics, split-filter refresh, reservoir choice of the split
  dimension, split execution and rebalancing.  Statistics are exact
  rationals.  The types `avg_t`, `qvar_t`, `splitfilter_t` and
  `propts_t` live in headers that are not part of `src/`; they are
  modelled from the spec where noted, and the split-filter internals and
  the approximate merge are kept as explicit parameters of the update
  function, so every theorem quantifies over them.

* `prlearn.LP` — the linear-program construction of
  `node_t::set_correction` (constraint matrix, column bounds, objective
  coefficients) with the GLPK solver treated as an external service,
  exactly as the spec prescribes.
-/

namespace prlearn

/-- Value domain of the read path: a rational extended with the IEEE
double special values.  `nan` models a quiet NaN, `inf`/`ninf` the two
infinities; `val q` is an ordinary finite double (kept exact). -/
inductive DReal : Type
  | nan : DReal
  | inf : DReal
  | ninf : DReal
  | val : ℚ → DReal
deriving DecidableEq, Repr, Inhabited

/-- Model of `std::isnan`. -/
def DReal.isnan : DReal → Bool
  | .nan => true
  | _ => false

/-- Model of `std::isinf`. -/
def DReal.isinf : DReal → Bool
  | .inf => true
  | .ninf => true
  | _ => false

/-- Model of the IEEE `<` comparison on doubles: any comparison with a
NaN is false, `ninf` is below and `inf` above every finite value. -/
def DReal.dlt : DReal → DReal → Bool
  | .nan, _ => false
  | _, .nan => false
  | .inf, _ => false
  | .ninf, .ninf => false
  | .ninf, _ => true
  | .val _, .inf => true
  | .val _, .ninf => false
  | .val a, .val b => decide (a < b)

namespace ReadModel

/-- Model of the `_split` member of `RefinementTree::node_t`: split flag,
split dimension `_var`, split `_boundary` and the arena indices of the
two children. -/
structure split_t where
  is_split : Bool := false
  var : ℕ := 0
  boundary : ℚ := 0
  low : ℕ := 0
  high : ℕ := 0
deriving DecidableEq, Repr, Inhabited

/-- Read-path view of `qpred_t`: the fields of `_predictor` consulted by
`lookup` and `getBestQ` — the value statistic mean `_q.avg()` and
variance `_q._variance` (as doubles, hence `DReal`) and the sample
counter `_cnt`. -/
structure qpred_t where
  q_avg : DReal := DReal.nan
  q_variance : DReal := DReal.val 0
  cnt : ℕ := 0
deriving DecidableEq, Repr, Inhabited

/-- Read-path view of `RefinementTree::node_t`. -/
structure node_t where
  predictor : qpred_t := {}
  split : split_t := {}
deriving DecidableEq, Repr, Inhabited

/-- Model of `RefinementTree::el_t`: one label-index entry, a label and
the arena index `_nid` of that label's root node. -/
structure el_t where
  label : ℕ := 0
  nid : ℕ := 0
deriving DecidableEq, Repr, Inhabited

/-- Model of `RefinementTree`: the node arena `_nodes` and the sorted
label index `_mapping`. -/
structure RefinementTree where
  nodes : List node_t := []
  mapping : List el_t := []
deriving DecidableEq, Repr, Inhabited

/-- Model of `node_t::get_leaf`: descend from `current` while the node is
split, following the low child iff `point[_var] <= _boundary`.  The C++
recursion terminates because arenas built by `update` are forests; the
embedding makes this explicit with a fuel argument (callers pass the
arena size, enough for any acyclic descent). -/
def get_leaf (nodes : List node_t) (point : ℕ → ℚ) : ℕ → ℕ → ℕ
  | 0, current => current
  | fuel + 1, current =>
    let n := nodes.getD current default
    if n.split.is_split then
      if point n.split.var ≤ n.split.boundary then
        get_leaf nodes point fuel n.split.low
      else
        get_leaf nodes point fuel n.split.high
    else current

/-- Result record of `lookup`: the `qvar_t(avg, cnt, variance)` triple it
returns. -/
structure qvar_res where
  avg : DReal
  cnt : ℕ
  variance : DReal
deriving DecidableEq, Repr, Inhabited

/-- Model of `std::lower_bound` on `_mapping` (sorted by label): the
suffix starting at the first entry whose label is not below the key.  On
the sorted lists maintained by `update` this is exactly what the binary
search of the source returns. -/
def lower_bound (m : List el_t) (label : ℕ) : List el_t :=
  m.dropWhile (fun e => decide (e.label < label))

/-- Model of `RefinementTree::lookup`: resolve the label; if it is
absent return the sentinel `qvar_t(NaN, 0, 0)`, otherwise descend to the
leaf and return its mean, sample count and variance.  The source method
is `const`: it is embedded as a pure function of the tree. -/
def lookup (t : RefinementTree) (label : ℕ) (point : ℕ → ℚ) : qvar_res :=
  match lower_bound t.mapping label with
  | [] => ⟨DReal.nan, 0, DReal.val 0⟩
  | e :: _ =>
    if e.label ≠ label then ⟨DReal.nan, 0, DReal.val 0⟩
    else
      let n := get_leaf t.nodes point t.nodes.length e.nid
      let nd := t.nodes.getD n default
      ⟨nd.predictor.q_avg, nd.predictor.cnt, nd.predictor.q_variance⟩

/-- Leaf prediction consulted by `getBestQ` for one label entry: the mean
of the leaf reached by descending from that entry's root. -/
def leaf_q (nodes : List node_t) (point : ℕ → ℚ) (e : el_t) : DReal :=
  (nodes.getD (get_leaf nodes point nodes.length e.nid) default).predictor.q_avg

/-- One accumulation step of `getBestQ`: skip infinite or NaN
predictions, otherwise `std::min(v, val)` / `std::max(v, val)` under the
IEEE comparison. -/
def best_step (minimization : Bool) (val v : DReal) : DReal :=
  if v.isinf || v.isnan then val
  else if minimization then (if DReal.dlt val v then val else v)
  else (if DReal.dlt v val then val else v)

/-- Model of the `next_labels == nullptr` loop of `getBestQ`: fold over
every entry of `_mapping`. -/
def bestq_all (nodes : List node_t) (point : ℕ → ℚ) (minimization : Bool) :
    List el_t → DReal → DReal
  | [], val => val
  | e :: rest, val =>
    bestq_all nodes point minimization rest (best_step minimization val (leaf_q nodes point e))

/-- Model of the candidate-list loop of `getBestQ`: a merge scan of the
sorted candidate list against the sorted label index.  The cursor `j` of
the source is the retained suffix of `_mapping`; exhausting the mapping
returns the accumulator early. -/
def bestq_cands (nodes : List node_t) (point : ℕ → ℚ) (minimization : Bool) :
    List el_t → List ℕ → DReal → DReal
  | _, [], val => val
  | mp, c :: cs, val =>
    match mp.dropWhile (fun e => decide (e.label < c)) with
    | [] => val
    | e :: rest =>
      if e.label ≠ c then bestq_cands nodes point minimization (e :: rest) cs val
      else
        bestq_cands nodes point minimization (e :: rest) cs
          (best_step minimization val (leaf_q nodes point e))

/-- Model of `RefinementTree::getBestQ`.  The accumulator starts at
`+inf` when minimizing and `-inf` when maximizing; `none` for
`next_labels` models the null pointer. -/
def getBestQ (t : RefinementTree) (point : ℕ → ℚ) (minimization : Bool)
    (next_labels : Option (List ℕ)) : DReal :=
  let v0 := if minimization then DReal.inf else DReal.ninf
  match next_labels with
  | none => bestq_all t.nodes point minimization t.mapping v0
  | some cs => bestq_cands t.nodes point minimization t.mapping cs v0

/-- The finite part of a prediction: `some q` for a finite mean,
`none` for an infinite or NaN one (the values `getBestQ` skips). -/
def finQ : DReal → Option ℚ
  | DReal.val q => some q
  | _ => none

/-- The finite leaf predictions of a label list at a point — exactly the
values `getBestQ` aggregates. -/
def fin_qs (nodes : List node_t) (point : ℕ → ℚ) (m : List el_t) : List ℚ :=
  m.filterMap (fun e => finQ (leaf_q nodes point e))

/-- The label entries a candidate-list `getBestQ` call aggregates over:
the entries of the (sorted) label index whose label is in the candidate
set.  On sorted inputs the merge scan of the source visits exactly
these. -/
def cand_entries (m : List el_t) (cands : List ℕ) : List el_t :=
  m.filter (fun e => decide (e.label ∈ cands))

/-- Running minimum over `Option ℚ` (`none` = no finite value seen). -/
def omin (a : Option ℚ) (q : ℚ) : Option ℚ :=
  some (a.elim q (fun x => min x q))

/-- Running maximum over `Option ℚ` (`none` = no finite value seen). -/
def omax (a : Option ℚ) (q : ℚ) : Option ℚ :=
  some (a.elim q (fun x => max x q))

/-- The spec §8 scenario for `getBestQ`: labels A=0, B=1, C=2 with
single-leaf predictions 3.0, 1.0 and NaN. -/
def t_best : RefinementTree :=
  { nodes := [{ predictor := { q_avg := DReal.val 3, q_variance := DReal.val 0, cnt := 1 } }, { predictor := { q_avg := DReal.val 1, q_variance := DReal.val 0, cnt := 1 } }, { predictor := { q_avg := DReal.nan, q_variance := DReal.val 0, cnt := 0 } }]
    mapping := [{ label := 0, nid := 0 }, { label := 1, nid := 1 }, { label := 2, nid := 2 }] }

/-- A freshly constructed `node_t` (what `_nodes.emplace_back()`
appends): an unsplit leaf with an empty predictor. -/
def fresh_node : node_t := {}

/-- Model of the label-index part of `RefinementTree::update` (lines
112-126): resolve the label by `lower_bound`; if absent, append a fresh
leaf to the arena and insert `{label, nid}` at the lower-bound position;
then descend to the addressed leaf and apply the leaf update.  The leaf
update `node_t::update` receives the node vector and the leaf index and
returns the transformed vector; it has no access to `_mapping`, so it is
a parameter `f` here. -/
def tree_update (t : RefinementTree) (label : ℕ) (point : ℕ → ℚ)
    (f : List node_t → ℕ → List node_t) : RefinementTree :=
  let pre := t.mapping.takeWhile (fun e => decide (e.label < label))
  let post := t.mapping.dropWhile (fun e => decide (e.label < label))
  let inserted : RefinementTree :=
    let nid := t.nodes.length
    let nodes1 := t.nodes ++ [fresh_node]
    { nodes := f nodes1 (get_leaf nodes1 point nodes1.length nid),
      mapping := pre ++ el_t.mk label nid :: post }
  match post with
  | e :: _ =>
    if e.label = label then
      { t with nodes := f t.nodes (get_leaf t.nodes point t.nodes.length e.nid) }
    else inserted
  | [] => inserted

/-- A sequence of `update` calls: each element carries the label, the
point, and the leaf-update transformation applied to the arena. -/
def run_updates (t : RefinementTree) :
    List (ℕ × (ℕ → ℚ) × (List node_t → ℕ → List node_t)) → RefinementTree
  | [] => t
  | u :: rest => run_updates (tree_update t u.1 u.2.1 u.2.2) rest

/-- Strict label sortedness of the index (which also gives uniqueness of
labels). -/
def labels_sorted (m : List el_t) : Prop :=
  m.Pairwise (fun a b => a.label < b.label)

/-- Presence of a label in the index. -/
def has_label (m : List el_t) (lab : ℕ) : Prop :=
  ∃ e ∈ m, e.label = lab

end ReadModel

/-- Modelled from the spec: `avg_t` is declared in `structs.h`, which is
not part of `src/`.  A RunningStat over coordinates: count and mean
(spec §3: count 0 means the mean is zero/undefined). -/
structure avg_t where
  avg : ℚ := 0
  cnt : ℕ := 0
deriving DecidableEq, Repr, Inhabited

/-- Modelled from the spec: `observe` of a RunningStat — a one-pass
incremental mean update (`avg_t::operator+=(double)`). -/
def avg_t.addPoint (a : avg_t) (v : ℚ) : avg_t :=
  let c := a.cnt + 1
  { avg := a.avg + (v - a.avg) / (c : ℚ), cnt := c }

/-- Modelled from the spec: `merge` of two RunningStats
(`avg_t::operator+=(const avg_t&)`) — a count-weighted mean; a
count-0 stream contributes nothing. -/
def avg_t.merge (a b : avg_t) : avg_t :=
  let c := a.cnt + b.cnt
  if c = 0 then a
  else { avg := (a.avg * (a.cnt : ℚ) + b.avg * (b.cnt : ℚ)) / (c : ℚ), cnt := c }

/-- Modelled from the spec: `qvar_t` of `structs.h` — a RunningStat over
observed values: count, mean and variance. -/
structure qvar_t where
  avg : ℚ := 0
  cnt : ℕ := 0
  variance : ℚ := 0
deriving DecidableEq, Repr, Inhabited

/-- Modelled from the spec: Welford-style one-pass update of count, mean
and variance (`qvar_t::operator+=(double)`). -/
def qvar_t.addObs (q : qvar_t) (v : ℚ) : qvar_t :=
  let c := q.cnt + 1
  let m := q.avg + (v - q.avg) / (c : ℚ)
  { avg := m, cnt := c,
    variance := (q.variance * (q.cnt : ℚ) + (v - q.avg) * (v - m)) / (c : ℚ) }

/-- Modelled from the spec: the recognized configuration fields of
`propts_t` (spec §6), as used by `RefinementTree.cpp`. -/
structure propts_t where
  q_learn_rate : ℕ := 0
  indefference : ℚ := 0
  lower_t : ℚ := 0
  upper_t : ℚ := 0
  ks_limit : ℚ := 0
  filter_rate : ℚ := 0
  filter_val : ℚ := 0
deriving DecidableEq, Repr, Inhabited

/-- Modelled from the spec: the interface of `splitfilter_t` (spec §4.4:
`add`, `max`, `reset`, default construction); its internals live in a
header missing from `src/`, so the update function is parameterized over
an arbitrary implementation `F` with these operations.  `add` receives,
in source order, the low and high value statistics, the scaled
indifference margin, the two critical thresholds, the divergence limit
and the decay rate. -/
structure splitfilter_ops (F : Type) where
  add : F → qvar_t → qvar_t → ℚ → ℚ → ℚ → ℚ → ℚ → F
  maxv : F → ℚ
  reset : F → F
  dflt : F

/-- Model of `qdata_t`: the per-dimension bookkeeping of a live leaf —
midpoint estimate, low/high partition value statistics, low/high
partition coordinate statistics, and the split filter. -/
structure qdata_t (F : Type) where
  midpoint : avg_t := {}
  lowq : qvar_t := {}
  highq : qvar_t := {}
  lmid : avg_t := {}
  hmid : avg_t := {}
  splitfilter : F
deriving DecidableEq, Repr

/-- A default-constructed `qdata_t` (what `make_unique<qdata_t[]>`
produces). -/
def qdata_default {F : Type} (ops : splitfilter_ops F) : qdata_t F :=
  { splitfilter := ops.dflt }

/-- Model of `qpred_t`: the payload of a leaf — value statistic `_q`,
sample counter `_cnt`, and the optional per-dimension data array. -/
structure qpred_t (F : Type) where
  q : qvar_t := {}
  cnt : ℕ := 0
  data : Option (List (qdata_t F)) := none
deriving DecidableEq, Repr

/-- Learning-rate enforcement and value update of `node_t::update`
(lines 300-301): clamp the stored count to `_q_learn_rate`, then
incorporate the new observation. -/
def updated_q (q : qvar_t) (opts : propts_t) (nval : ℚ) : qvar_t :=
  qvar_t.addObs { q with cnt := min q.cnt opts.q_learn_rate } nval

/-- One iteration of the per-dimension loop of `node_t::update` (lines
305-322): attribute the observation to the low partition iff
`point[i] <= midpoint`, then refresh the dimension's split filter with
the updated partition statistics. -/
def dim_step {F : Type} (ops : splitfilter_ops F) (opts : propts_t)
    (delta nval : ℚ) (point : ℕ → ℚ) (i : ℕ) (d : qdata_t F) : qdata_t F :=
  let d1 :=
    if point i ≤ d.midpoint.avg then
      { d with lowq := d.lowq.addObs nval, lmid := d.lmid.addPoint (point i) }
    else
      { d with highq := d.highq.addObs nval, hmid := d.hmid.addPoint (point i) }
  { d1 with splitfilter :=
      (ops.add d1.splitfilter d1.lowq d1.highq (delta * opts.indefference)
        opts.lower_t opts.upper_t opts.ks_limit opts.filter_rate) }

/-- The per-dimension data array after the update loop. -/
def updated_data {F : Type} (ops : splitfilter_ops F) (opts : propts_t)
    (delta nval : ℚ) (point : ℕ → ℚ) (dimen : ℕ) (data0 : List (qdata_t F)) :
    List (qdata_t F) :=
  (List.range dimen).map
    (fun i => dim_step ops opts delta nval point i (data0.getD i (qdata_default ops)))

/-- The dimensions whose refreshed split filter reached the critical
value `_filter_val` (line 326), in index order. -/
def split_candidates {F : Type} (ops : splitfilter_ops F) (opts : propts_t)
    (ds : List (qdata_t F)) : List ℕ :=
  (List.range ds.length).filter
    (fun i => decide (opts.filter_val ≤ ops.maxv ((ds.getD i (qdata_default ops)).splitfilter)))

/-- The reservoir choice of the split dimension (lines 326-330): for the
k-th candidate (1-based, in index order) draw `rands k` (one `std::rand()`
call per candidate) and replace the current choice iff `rands k % k = 0`. -/
def svarFold (rands : ℕ → ℕ) : List ℕ → ℕ → ℕ → ℕ
  | [], _, svar => svar
  | c :: cs, cnt, svar =>
    svarFold rands cs (cnt + 1) (if rands (cnt + 1) % (cnt + 1) = 0 then c else svar)

/-- Seeding of a fresh child leaf's value statistic (lines 363-374): a
side with zero observations inherits the pre-split overall mean with
count 1 and variance 0. -/
def seed_q (oq q0 : qvar_t) : qvar_t :=
  if 0 < oq.cnt ∧ q0.cnt = 0 then { avg := oq.avg, cnt := 1, variance := 0 } else q0

/-- Per-dimension data of a fresh child leaf (lines 350-362): on the
split dimension the side coordinate statistic becomes the midpoint
estimate, on every other dimension both children inherit the combined
low+high coordinate statistic; all other fields are default. -/
def child_data {F : Type} (ops : splitfilter_ops F) (dimen svar : ℕ)
    (ds : List (qdata_t F)) (low : Bool) : List (qdata_t F) :=
  (List.range dimen).map (fun i =>
    let di := ds.getD i (qdata_default ops)
    if i = svar then
      { qdata_default ops with midpoint := if low then di.lmid else di.hmid }
    else
      { qdata_default ops with midpoint := di.lmid.merge di.hmid })

/-- One dimension of the rebalancing pass (lines 387-409).  `approx` is
`qvar_t::approximate` (defined in `Math.cpp`, not part of `src/`), kept
as a parameter.  Returns the new per-dimension data and whether this
dimension was rebalanced. -/
def rebal_dim {F : Type} (approx : qvar_t → qvar_t → qvar_t) (d : qdata_t F) :
    qdata_t F × Bool :=
  let mx := max d.hmid.cnt d.lmid.cnt
  let mn := min d.hmid.cnt d.lmid.cnt
  if 2 ≤ mx ∧ 5 ^ mn < mx ∧ d.midpoint.cnt < mx then
    let nm := d.lmid.merge d.hmid
    if nm.avg = d.midpoint.avg then (d, false)
    else
      let half : avg_t := { nm with cnt := nm.cnt / 2 }
      let lq := approx d.lowq d.highq
      let lq2 : qvar_t := { lq with cnt := lq.cnt / 2 }
      let d2 : qdata_t F :=
        { d with
            hmid := half
            lmid := half
            midpoint := (d.midpoint.merge nm)
            lowq := lq2
            highq := lq2 }
      (d2, true)
  else (d, false)

/-- The rebalancing pass over all dimensions, with the flag recording
whether any dimension was rebalanced (`rezero`). -/
def rebal_all {F : Type} (approx : qvar_t → qvar_t → qvar_t)
    (ds : List (qdata_t F)) : List (qdata_t F) × Bool :=
  ((ds.map (rebal_dim approx)).map Prod.fst, (ds.map (rebal_dim approx)).any Prod.snd)

/-- Reset of every dimension's split filter (lines 413-416). -/
def reset_filters {F : Type} (ops : splitfilter_ops F) (ds : List (qdata_t F)) :
    List (qdata_t F) :=
  ds.map (fun d => { d with splitfilter := ops.reset d.splitfilter })

/-- Outcome of a split (lines 334-381): the chosen dimension, the split
boundary, and the two freshly allocated child leaves. -/
structure split_out (F : Type) where
  svar : ℕ
  boundary : ℚ
  lowLeaf : qpred_t F
  highLeaf : qpred_t F
deriving DecidableEq, Repr

/-- Result of `node_t::update` on a leaf: either the updated leaf (no
split) or a single split record.  The constructor shape itself encodes
that at most one split happens per call. -/
inductive update_result (F : Type) : Type
  | noSplit : qpred_t F → update_result F
  | split : split_out F → update_result F
deriving DecidableEq, Repr

/-- The per-dimension data of a leaf after the update loop of one
`node_t::update` call: the stored array (allocated fresh if absent, line
296-297) with every dimension refreshed. -/
def leaf_ds {F : Type} (ops : splitfilter_ops F) (opts : propts_t)
    (delta nval : ℚ) (point : ℕ → ℚ) (dimen : ℕ) (pred : qpred_t F) :
    List (qdata_t F) :=
  updated_data ops opts delta nval point dimen
    (pred.data.getD (List.replicate dimen (qdata_default ops)))

/-- The split candidates of one `node_t::update` call. -/
def leaf_cs {F : Type} (ops : splitfilter_ops F) (opts : propts_t)
    (delta nval : ℚ) (point : ℕ → ℚ) (dimen : ℕ) (pred : qpred_t F) : List ℕ :=
  split_candidates ops opts (leaf_ds ops opts delta nval point dimen pred)

/-- The leaf produced by a non-splitting `node_t::update` call: updated
value statistic and counter, rebalanced per-dimension data, and all
split filters reset when any dimension was rebalanced. -/
def nosplit_result {F : Type} (ops : splitfilter_ops F)
    (approx : qvar_t → qvar_t → qvar_t) (pred : qpred_t F) (point : ℕ → ℚ)
    (dimen : ℕ) (nval delta : ℚ) (opts : propts_t) : qpred_t F :=
  let ds := leaf_ds ops opts delta nval point dimen pred
  let r := rebal_all approx ds
  let ds2 := if r.2 then reset_filters ops r.1 else r.1
  { q := updated_q pred.q opts nval, cnt := pred.cnt + 1, data := some ds2 }

/-- The split record produced by a splitting `node_t::update` call
(lines 334-381): the reservoir-chosen dimension, its midpoint as the
boundary, and the two seeded child leaves. -/
def split_result {F : Type} (ops : splitfilter_ops F) (pred : qpred_t F)
    (point : ℕ → ℚ) (dimen : ℕ) (nval delta : ℚ) (opts : propts_t)
    (rands : ℕ → ℕ) : split_out F :=
  let oq := updated_q pred.q opts nval
  let ds := leaf_ds ops opts delta nval point dimen pred
  let cs := leaf_cs ops opts delta nval point dimen pred
  let svar := svarFold rands cs 0 0
  let dsv := ds.getD svar (qdata_default ops)
  let lq := seed_q oq dsv.lowq
  let hq := seed_q oq dsv.highq
  { svar := svar
    boundary := dsv.midpoint.avg
    lowLeaf := { q := lq, cnt := lq.cnt, data := some (child_data ops dimen svar ds true) }
    highLeaf := { q := hq, cnt := hq.cnt, data := some (child_data ops dimen svar ds false) } }

/-- Model of `node_t::update` (lines 294-419) on a leaf.  The data array
is allocated if absent; the value statistic is updated under the
learning rate; every dimension's partition statistics and split filter
are refreshed; if any filter reached the critical value a single split
is executed with the reservoir-chosen dimension, otherwise the
rebalancing pass runs.  `rands` supplies the `std::rand()` stream, one
draw per candidate. -/
def node_update {F : Type} (ops : splitfilter_ops F)
    (approx : qvar_t → qvar_t → qvar_t) (pred : qpred_t F) (point : ℕ → ℚ)
    (dimen : ℕ) (nval : ℚ) (delta : ℚ) (opts : propts_t) (rands : ℕ → ℕ) :
    update_result F :=
  if (leaf_cs ops opts delta nval point dimen pred).isEmpty then
    update_result.noSplit (nosplit_result ops approx pred point dimen nval delta opts)
  else
    update_result.split (split_result ops pred point dimen nval delta opts rands)

/-- Whether the update produced a split. -/
def update_result.isSplit {F : Type} : update_result F → Bool
  | .split _ => true
  | .noSplit _ => false

/-- The split record of an update, when one was produced. -/
def update_result.getSplit {F : Type} : update_result F → Option (split_out F)
  | .split s => some s
  | .noSplit _ => none

/-- The updated leaf of a non-splitting update. -/
def update_result.getLeaf {F : Type} : update_result F → Option (qpred_t F)
  | .split _ => none
  | .noSplit p => some p

/-- Position (1-based) of the last zero in the reversed list: helper for
the reservoir-choice analysis. -/
def selRev : List ℕ → ℕ
  | [] => 0
  | v :: rest => if v = 0 then rest.length + 1 else selRev rest

/-- Position (1-based) of the last zero residue of a forward residue
list; 0 if there is none.  The reservoir choice keeps the candidate at
the last position whose draw was `0 mod position`. -/
def selPos (l : List ℕ) : ℕ := selRev l.reverse

/-- All residue tuples of a reservoir run over `m` candidates: lists
`[u 1, ..., u m]` with `u k < k` (the value of `rand() % k` at the k-th
candidate).  There are `m!` of them. -/
def resTuples : ℕ → Finset (List ℕ)
  | 0 => {[]}
  | m + 1 => ((resTuples m) ×ˢ (Finset.range (m + 1))).image (fun p => p.1 ++ [p.2])

/-- The residues actually drawn by a reservoir run over `m` candidates
from the raw `std::rand()` stream. -/
def residues (rands : ℕ → ℕ) (m : ℕ) : List ℕ :=
  (List.range m).map (fun k => rands (k + 1) % (k + 1))

namespace LP

/-- GLPK status code for an optimal basic solution (`GLP_OPT` of
`glpk.h`). -/
def GLP_OPT : ℕ := 5

/-- Number of structural columns of the correction LP (line 216): one
weight per dimension, four slack variables per dimension, one
intercept. -/
def nCol (dimen : ℕ) : ℕ := dimen + dimen * 4 + 1

/-- One equality constraint as handed to `glp_set_mat_row` /
`glp_set_row_bnds` with `GLP_FX`: the GLPK row number, the dimension and
side it was generated for, the dense coefficient row (index j = column
j; index 0 unused) and the fixed right-hand side. -/
structure lp_constraint where
  rowno : ℕ := 0
  dim : ℕ := 0
  low : Bool := true
  coeffs : List ℚ := []
  rhs : ℚ := 0
deriving DecidableEq, Repr, Inhabited

/-- State threaded through the constraint-building loop of
`set_correction`: the reused dense row buffer, the GLPK row counter, the
emitted constraints, and the objective coefficients by column. -/
structure lp_state where
  row : List ℚ := []
  rowno : ℕ := 0
  constraints : List lp_constraint := []
  obj : List ℚ := []
deriving DecidableEq, Repr, Inhabited

/-- The inner column loop of `set_correction` (lines 236-246): column
i+1 carries dimension d's own side midpoint when i = d and the combined
low+high midpoint average otherwise. -/
def set_midpoints {F : Type} (ops : splitfilter_ops F) (dimen : ℕ)
    (dd : List (qdata_t F)) (d : ℕ) (mid : avg_t) (row : List ℚ) : List ℚ :=
  (List.range dimen).foldl (fun r i =>
    if i = d then r.set (i + 1) mid.avg
    else
      r.set (i + 1)
        (((dd.getD i (qdata_default ops)).lmid.merge
          (dd.getD i (qdata_default ops)).hmid).avg)) row

/-- One (dimension, side) iteration of the constraint-building loop of
`set_correction` (lines 230-258), transcribed exactly: the row counter
is advanced first; a side with no observations is skipped; otherwise the
row buffer is filled, the constraint is emitted with the side mean as a
fixed bound, two buffer slots are zeroed again (note the differing
column expressions of lines 248 and 253), and the two objective
coefficients are set.  `sqrtQ` stands for `std::sqrt`. -/
def lp_side_step {F : Type} (ops : splitfilter_ops F) (dimen : ℕ)
    (sqrtQ : ℚ → ℚ) (q : qvar_t) (dd : List (qdata_t F)) (d : ℕ) (low : Bool)
    (st : lp_state) : lp_state :=
  let rowno := st.rowno + 1
  let data := dd.getD d (qdata_default ops)
  let qval := if low then data.lowq else data.highq
  let mid := if low then data.lmid else data.hmid
  if qval.cnt = 0 then { st with rowno := rowno }
  else
    let row1 := set_midpoints ops dimen dd d mid st.row
    let row2 := row1.set (dimen + 1) 1
    let row3 := row2.set (dimen + 2 + d + (if low then 0 else 2 * dimen)) 1
    let row4 := row3.set (dimen + 2 + d + dimen + (if low then 0 else 2 * dimen)) (-1)
    let cons := st.constraints ++ [⟨rowno, d, low, row4, qval.avg⟩]
    let row5 := row4.set (dimen + 2 + d + (if low then 0 else dimen)) 0
    let row6 := row5.set (dimen + 2 + d + dimen + (if low then 0 else 2 * dimen)) 0
    let r := sqrtQ qval.variance / sqrtQ q.variance
    let obj1 := st.obj.set (dimen + 2 + d + (if low then 0 else dimen)) (1 / (1 + r ^ 2))
    let obj2 := obj1.set (dimen + 2 + d + dimen + (if low then 0 else 2 * dimen)) (1 / (1 + r))
    { row := row6, rowno := rowno, constraints := cons, obj := obj2 }

/-- The full LP construction of `set_correction` (lines 216-275): all
(dimension, side) iterations in source order (for each dimension, low
then high), followed by the final zeroing of the objective coefficients
of the weight and intercept columns.  GLPK objective coefficients start
at 0, the dense row buffer starts zeroed. -/
def lp_build {F : Type} (ops : splitfilter_ops F) (dimen : ℕ) (sqrtQ : ℚ → ℚ)
    (q : qvar_t) (dd : List (qdata_t F)) : lp_state :=
  let st0 : lp_state :=
    { row := List.replicate (nCol dimen + 1) 0, rowno := 0, constraints := [],
      obj := List.replicate (nCol dimen + 1) 0 }
  let st1 := (List.range dimen).foldl (fun st d =>
      lp_side_step ops dimen sqrtQ q dd d false
        (lp_side_step ops dimen sqrtQ q dd d true st)) st0
  { st1 with obj := (List.range (dimen + 2)).foldl (fun o i => o.set i 0) st1.obj }

/-- Column bounds set at lines 261-267: slack columns
(`i >= dimen + 2`) are constrained non-negative (`GLP_LO 0`), weight and
intercept columns are free (`GLP_FR`). -/
def col_nonneg (dimen i : ℕ) : Bool := decide (dimen + 2 ≤ i)

/-- Positive-slack column of the constraint row for (dimension d, side
low/high), as assigned at line 248. -/
def slack_pos_col (dimen d : ℕ) (low : Bool) : ℕ :=
  dimen + 2 + d + (if low then 0 else 2 * dimen)

/-- Negative-slack column of the constraint row for (dimension d, side
low/high), as assigned at line 249. -/
def slack_neg_col (dimen d : ℕ) (low : Bool) : ℕ :=
  dimen + 2 + d + dimen + (if low then 0 else 2 * dimen)

/-- The coefficient at column j of the constraint row for (dimension d,
side low/high) as the spec claims it: the linear model columns carry the
midpoints, the intercept column 1, the row's own positive and negative
slack columns +1 and -1, and every other column 0. -/
def claimed_coeff {F : Type} (ops : splitfilter_ops F) (dimen : ℕ)
    (dd : List (qdata_t F)) (d : ℕ) (low : Bool) (j : ℕ) : ℚ :=
  if 1 ≤ j ∧ j ≤ dimen then
    (if j - 1 = d then
      (if low then (dd.getD d (qdata_default ops)).lmid.avg
       else (dd.getD d (qdata_default ops)).hmid.avg)
     else
      ((dd.getD (j - 1) (qdata_default ops)).lmid.merge
        (dd.getD (j - 1) (qdata_default ops)).hmid).avg)
  else if j = dimen + 1 then 1
  else if j = slack_pos_col dimen d low then 1
  else if j = slack_neg_col dimen d low then -1
  else 0

/-- Outcome of the external simplex solve: the return value of
`glp_simplex`, the status of `glp_get_status`, and the primal column
values of `glp_get_col_prim`. -/
structure solver_outcome where
  result : ℤ := 0
  status : ℕ := 0
  primal : ℕ → ℚ := fun _ => 0

/-- Model of `node_t::set_correction` (lines 208-292).  The simplex
solve is the external service of spec §1 (objective and constraints in,
primal solution or failure out), passed as `solver`.  A zero leaf value
variance returns before building anything, leaving the correction
(`prior`; null for a leaf that has never split) untouched.  Otherwise
the correction is stored iff `glp_simplex` returned 0 and the status is
`GLP_OPT`, and holds the primal values of columns 1 .. dimen+1 (the
dimension weights and the intercept); any other outcome clears it. -/
def set_correction {F : Type} (ops : splitfilter_ops F) (dimen : ℕ)
    (sqrtQ : ℚ → ℚ) (q : qvar_t) (dd : List (qdata_t F))
    (solver : lp_state → solver_outcome) (prior : Option (List ℚ)) :
    Option (List ℚ) :=
  if q.variance = 0 then prior
  else
    let out := solver (lp_build ops dimen sqrtQ q dd)
    if out.result = 0 ∧ out.status = GLP_OPT then
      some ((List.range (dimen + 1)).map (fun i => out.primal (i + 1)))
    else none

end LP

/-- A trivial split-filter instance over `Unit` whose evidence is always
1: used by concrete witnesses. -/
def unit_ops : splitfilter_ops Unit :=
  { add := fun f _ _ _ _ _ _ _ => f
    maxv := fun _ => 1
    reset := fun f => f
    dflt := () }

/-- A trivial split-filter instance over `Unit` whose evidence is always
0: used by concrete witnesses that must not split. -/
def unit_ops0 : splitfilter_ops Unit :=
  { add := fun f _ _ _ _ _ _ _ => f
    maxv := fun _ => 0
    reset := fun f => f
    dflt := () }

/-- Concrete per-dimension statistics for the C4 exhibit: two dimensions
with one observation on each side of each dimension. -/
def dd_c4 : List (qdata_t Unit) :=
  [{ midpoint := ⟨2, 2⟩, lowq := ⟨2, 1, 0⟩, highq := ⟨4, 1, 0⟩, lmid := ⟨1, 1⟩, hmid := ⟨3, 1⟩, splitfilter := () },
   { midpoint := ⟨1, 2⟩, lowq := ⟨5, 1, 0⟩, highq := ⟨7, 1, 0⟩, lmid := ⟨0, 1⟩, hmid := ⟨2, 1⟩, splitfilter := () }]

/-- The LP state built by `set_correction` for the C4 exhibit (leaf value
variance 1, so the LP is built). -/
def st_c4 : LP.lp_state := LP.lp_build unit_ops 2 (fun x => x) ⟨3, 4, 1⟩ dd_c4

/-- The rebalancing rule of one dimension as the (amended) spec states
it: when one side's midpoint count is at least 2, `5 ^ min_count <
max_count`, the larger count exceeds the midpoint estimator's own count,
and the combined low+high midpoint average differs from the current
midpoint average, then both side midpoint statistics become the combined
statistic with its count halved, the combined statistic is merged
(count-weighted) into the midpoint estimate, and both side value
statistics become the approximate merge of the two with its count
halved; otherwise the dimension is untouched.  This definition follows
the claim's wording; the theorem below proves the source's rebalancing
pass equal to it. -/
def rebal_dim_spec {F : Type} (approx : qvar_t → qvar_t → qvar_t) (d : qdata_t F) :
    qdata_t F × Bool :=
  let nm := d.lmid.merge d.hmid
  let mq := approx d.lowq d.highq
  if (2 ≤ d.lmid.cnt ∨ 2 ≤ d.hmid.cnt) ∧
      5 ^ min d.lmid.cnt d.hmid.cnt < max d.lmid.cnt d.hmid.cnt ∧
      d.midpoint.cnt < max d.lmid.cnt d.hmid.cnt ∧
      nm.avg ≠ d.midpoint.avg then
    ({ d with
        lmid := { avg := nm.avg, cnt := nm.cnt / 2 }
        hmid := { avg := nm.avg, cnt := nm.cnt / 2 }
        midpoint := (d.midpoint.merge nm)
        lowq := { avg := mq.avg, cnt := mq.cnt / 2, variance := mq.variance }
        highq := { avg := mq.avg, cnt := mq.cnt / 2, variance := mq.variance } }, true)
  else (d, false)

/-- Concrete split exhibit (one dimension, first observation 5 at the
origin): the split record produced by `node_update` with the trivial
always-split filter. -/
def s_c1 : split_out Unit :=
  { svar := 0
    boundary := 0
    lowLeaf := { q := ⟨5, 1, 0⟩, cnt := 1, data := some [⟨⟨0, 1⟩, {}, {}, {}, {}, ()⟩] }
    highLeaf := { q := ⟨5, 1, 0⟩, cnt := 1, data := some [⟨⟨0, 0⟩, {}, {}, {}, {}, ()⟩] } }

/-- Options used by the rebalancing exhibits: a filter threshold the
always-zero filter never reaches, so no split triggers. -/
def opts_c3 : propts_t := { filter_val := 1 }

/-- Pre-update leaf of the C3 counterexample: one dimension whose low
midpoint statistic is (2, count 1), high side empty, midpoint estimate
(2, count 1). -/
def pred_c3 : qpred_t Unit :=
  { q := {}, cnt := 0,
    data := some [⟨⟨2, 1⟩, {}, {}, ⟨2, 1⟩, ⟨0, 0⟩, ()⟩] }

/-- The refreshed per-dimension data of the C3 counterexample update
(point 2, value 5). -/
def ds_c3 : List (qdata_t Unit) := leaf_ds unit_ops0 opts_c3 0 5 (fun _ => 2) 1 pred_c3

/-- That data's single dimension. -/
def d_c3 : qdata_t Unit := ds_c3.getD 0 (qdata_default unit_ops0)

/-- Pre-update leaf of the C3 amended-claim witness: low midpoint
statistic (4, count 1), midpoint estimate (0, count 1), so the combined
average 2 differs from the midpoint and rebalancing fires. -/
def pred_w3 : qpred_t Unit :=
  { q := {}, cnt := 0,
    data := some [⟨⟨0, 1⟩, {}, {}, ⟨4, 1⟩, ⟨0, 0⟩, ()⟩] }

/-- Pre-update leaf of the C10 witness: low midpoint statistic (3,
count 1), midpoint estimate (3, count 1); the combined average equals
the midpoint, so the dimension is skipped. -/
def pred_c10 : qpred_t Unit :=
  { q := {}, cnt := 0,
    data := some [⟨⟨3, 1⟩, {}, {}, ⟨3, 1⟩, ⟨0, 0⟩, ()⟩] }

/-- The refreshed per-dimension data of the C10 witness update (point 3,
value 7). -/
def ds_c10 : List (qdata_t Unit) := leaf_ds unit_ops0 opts_c3 0 7 (fun _ => 3) 1 pred_c10

section

attribute [local semireducible] Rat.add Rat.mul Rat.inv Rat.sub

namespace ReadModel

theorem mem_of_mem_lower_bound {m : List el_t} {label : ℕ} {e : el_t}
    (h : e ∈ lower_bound m label) : e ∈ m :=
  (List.dropWhile_sublist _).subset h

/-- C8: at each Internal node of a descent, the low child is followed
exactly when the point's coordinate in the split dimension is at most
the split boundary; in particular a coordinate exactly equal to the
boundary always routes to the low child. -/
theorem get_leaf_low_inclusive (nodes : List node_t) (point : ℕ → ℚ)
    (fuel cur : ℕ) (hs : (nodes.getD cur default).split.is_split = true) :
    (get_leaf nodes point (fuel + 1) cur =
      if point (nodes.getD cur default).split.var ≤ (nodes.getD cur default).split.boundary
      then get_leaf nodes point fuel (nodes.getD cur default).split.low
      else get_leaf nodes point fuel (nodes.getD cur default).split.high) ∧
    (point (nodes.getD cur default).split.var = (nodes.getD cur default).split.boundary →
      get_leaf nodes point (fuel + 1) cur =
        get_leaf nodes point fuel (nodes.getD cur default).split.low) := by
  constructor
  · simp only [get_leaf, hs, if_true]
  · intro he
    simp only [get_leaf, hs, if_true, he, le_refl, if_pos]

theorem get_leaf_low_inclusive_w :
    get_leaf [node_t.mk {} (split_t.mk true 0 5 1 2), {}, {}] (fun _ => 5) 1 0 = 1 :=
  ((get_leaf_low_inclusive [node_t.mk {} (split_t.mk true 0 5 1 2), {}, {}]
      (fun _ => 5) 0 0 (by decide)).2 (by decide)).trans (by decide)

/-- C6: a `lookup` with a label that has no entry in the label index
returns the sentinel `qvar_t(NaN, 0, 0)`; the operation is a pure read
(`lookup` is `const` in the source and is embedded as a function of the
tree) and raises nothing. -/
theorem lookup_unknown_sentinel (t : RefinementTree) (label : ℕ)
    (point : ℕ → ℚ) (h : ∀ e ∈ t.mapping, e.label ≠ label) :
    lookup t label point = ⟨DReal.nan, 0, DReal.val 0⟩ := by
  cases hl : lower_bound t.mapping label with
  | nil => unfold lookup; rw [hl]
  | cons e rest =>
    have hmem : e ∈ t.mapping :=
      mem_of_mem_lower_bound (hl ▸ List.mem_cons_self e rest)
    unfold lookup
    rw [hl]
    simp [h e hmem]

theorem lookup_unknown_sentinel_w :
    lookup { nodes := [{}], mapping := [{ label := 1, nid := 0 }] } 5 (fun _ => 0) =
      ⟨DReal.nan, 0, DReal.val 0⟩ :=
  lookup_unknown_sentinel _ 5 _ (by decide)

theorem best_step_not_finite (minz : Bool) (a v : DReal) (hv : finQ v = none) :
    best_step minz a v = a := by
  cases v with
  | nan => rfl
  | inf => rfl
  | ninf => rfl
  | val q => exact absurd hv (by simp [finQ])

theorem best_step_min_val (a : Option ℚ) (q : ℚ) :
    best_step true (a.elim DReal.inf DReal.val) (DReal.val q) =
      (omin a q).elim DReal.inf DReal.val := by
  cases a with
  | none => rfl
  | some x =>
    by_cases hxq : x < q
    · simp [best_step, DReal.isinf, DReal.isnan, DReal.dlt, omin, hxq, min_eq_left hxq.le]
    · simp [best_step, DReal.isinf, DReal.isnan, DReal.dlt, omin, hxq,
        min_eq_right (le_of_not_lt hxq)]

theorem best_step_max_val (a : Option ℚ) (q : ℚ) :
    best_step false (a.elim DReal.ninf DReal.val) (DReal.val q) =
      (omax a q).elim DReal.ninf DReal.val := by
  cases a with
  | none => rfl
  | some x =>
    by_cases hqx : q < x
    · simp [best_step, DReal.isinf, DReal.isnan, DReal.dlt, omax, hqx, max_eq_left hqx.le]
    · simp [best_step, DReal.isinf, DReal.isnan, DReal.dlt, omax, hqx,
        max_eq_right (le_of_not_lt hqx)]

theorem bestq_all_min_fold (nodes : List node_t) (point : ℕ → ℚ) :
    ∀ (m : List el_t) (a : Option ℚ),
      bestq_all nodes point true m (a.elim DReal.inf DReal.val) =
        ((fin_qs nodes point m).foldl omin a).elim DReal.inf DReal.val
  | [], a => by simp [bestq_all, fin_qs]
  | e :: rest, a => by
    cases hv : finQ (leaf_q nodes point e) with
    | none =>
      have h1 : best_step true (a.elim DReal.inf DReal.val) (leaf_q nodes point e) =
          a.elim DReal.inf DReal.val := best_step_not_finite true _ _ hv
      simp only [bestq_all, fin_qs, List.filterMap_cons, hv, h1]
      exact bestq_all_min_fold nodes point rest a
    | some q =>
      have hval : leaf_q nodes point e = DReal.val q := by
        cases hval2 : leaf_q nodes point e <;> rw [hval2] at hv <;>
          simp only [finQ, Option.some.injEq, reduceCtorEq] at hv
        rw [hv]
      simp only [bestq_all, fin_qs, List.filterMap_cons, hv, hval, best_step_min_val,
        List.foldl_cons]
      exact bestq_all_min_fold nodes point rest (omin a q)

theorem bestq_all_max_fold (nodes : List node_t) (point : ℕ → ℚ) :
    ∀ (m : List el_t) (a : Option ℚ),
      bestq_all nodes point false m (a.elim DReal.ninf DReal.val) =
        ((fin_qs nodes point m).foldl omax a).elim DReal.ninf DReal.val
  | [], a => by simp [bestq_all, fin_qs]
  | e :: rest, a => by
    cases hv : finQ (leaf_q nodes point e) with
    | none =>
      have h1 : best_step false (a.elim DReal.ninf DReal.val) (leaf_q nodes point e) =
          a.elim DReal.ninf DReal.val := best_step_not_finite false _ _ hv
      simp only [bestq_all, fin_qs, List.filterMap_cons, hv, h1]
      exact bestq_all_max_fold nodes point rest a
    | some q =>
      have hval : leaf_q nodes point e = DReal.val q := by
        cases hval2 : leaf_q nodes point e <;> rw [hval2] at hv <;>
          simp only [finQ, Option.some.injEq, reduceCtorEq] at hv
        rw [hv]
      simp only [bestq_all, fin_qs, List.filterMap_cons, hv, hval, best_step_max_val,
        List.foldl_cons]
      exact bestq_all_max_fold nodes point rest (omax a q)

theorem foldl_omin_some (l : List ℚ) :
    ∀ x : ℚ, ∃ m, l.foldl omin (some x) = some m ∧ (m = x ∨ m ∈ l) ∧ m ≤ x ∧
      ∀ y ∈ l, m ≤ y := by
  induction l with
  | nil => intro x; exact ⟨x, rfl, Or.inl rfl, le_refl x, by simp⟩
  | cons q rest ih =>
    intro x
    obtain ⟨m, hm, hmem, hle, hall⟩ := ih (min x q)
    have hfold : (q :: rest).foldl omin (some x) = rest.foldl omin (some (min x q)) := by
      simp [omin]
    refine ⟨m, hfold ▸ hm, ?_, le_trans hle (min_le_left x q), ?_⟩
    · rcases hmem with h | h
      · rcases le_total x q with hxq | hqx
        · exact Or.inl (h.trans (min_eq_left hxq))
        · refine Or.inr ?_
          rw [h.trans (min_eq_right hqx)]
          exact List.mem_cons_self q rest
      · exact Or.inr (List.mem_cons_of_mem q h)
    · intro y hy
      rcases List.mem_cons.mp hy with rfl | hy2
      · exact le_trans hle (min_le_right x y)
      · exact hall y hy2

theorem foldl_omax_some (l : List ℚ) :
    ∀ x : ℚ, ∃ m, l.foldl omax (some x) = some m ∧ (m = x ∨ m ∈ l) ∧ x ≤ m ∧
      ∀ y ∈ l, y ≤ m := by
  induction l with
  | nil => intro x; exact ⟨x, rfl, Or.inl rfl, le_refl x, by simp⟩
  | cons q rest ih =>
    intro x
    obtain ⟨m, hm, hmem, hle, hall⟩ := ih (max x q)
    have hfold : (q :: rest).foldl omax (some x) = rest.foldl omax (some (max x q)) := by
      simp [omax]
    refine ⟨m, hfold ▸ hm, ?_, le_trans (le_max_left x q) hle, ?_⟩
    · rcases hmem with h | h
      · rcases le_total x q with hxq | hqx
        · exact Or.inr (by simp [h.trans (max_eq_right hxq)])
        · exact Or.inl (h.trans (max_eq_left hqx))
      · exact Or.inr (List.mem_cons_of_mem q h)
    · intro y hy
      rcases List.mem_cons.mp hy with rfl | hy2
      · exact le_trans (le_max_right x y) hle
      · exact hall y hy2

theorem foldl_omin_min (l : List ℚ) (hl : l ≠ []) :
    ∃ m, l.foldl omin none = some m ∧ m ∈ l ∧ ∀ y ∈ l, m ≤ y := by
  cases l with
  | nil => exact absurd rfl hl
  | cons q rest =>
    have hfold : (q :: rest).foldl omin none = rest.foldl omin (some q) := by simp [omin]
    obtain ⟨m, hm, hmem, hle, hall⟩ := foldl_omin_some rest q
    refine ⟨m, hfold ▸ hm, ?_, ?_⟩
    · rcases hmem with rfl | h
      · exact List.mem_cons_self m rest
      · exact List.mem_cons_of_mem q h
    · intro y hy
      rcases List.mem_cons.mp hy with rfl | hy2
      · exact hle
      · exact hall y hy2

theorem foldl_omax_max (l : List ℚ) (hl : l ≠ []) :
    ∃ m, l.foldl omax none = some m ∧ m ∈ l ∧ ∀ y ∈ l, y ≤ m := by
  cases l with
  | nil => exact absurd rfl hl
  | cons q rest =>
    have hfold : (q :: rest).foldl omax none = rest.foldl omax (some q) := by simp [omax]
    obtain ⟨m, hm, hmem, hle, hall⟩ := foldl_omax_some rest q
    refine ⟨m, hfold ▸ hm, ?_, ?_⟩
    · rcases hmem with rfl | h
      · exact List.mem_cons_self m rest
      · exact List.mem_cons_of_mem q h
    · intro y hy
      rcases List.mem_cons.mp hy with rfl | hy2
      · exact hle
      · exact hall y hy2

theorem dropWhile_head_false {p : el_t → Bool} :
    ∀ {l : List el_t} {x : el_t} {xs : List el_t},
      l.dropWhile p = x :: xs → p x = false := by
  intro l
  induction l with
  | nil => intro x xs h; cases h
  | cons a l ih =>
    intro x xs h
    rw [List.dropWhile_cons] at h
    by_cases hp : p a = true
    · rw [if_pos hp] at h; exact ih h
    · rw [if_neg hp] at h
      cases h
      exact Bool.not_eq_true _ |>.mp hp

theorem bestq_cands_filter (nodes : List node_t) (point : ℕ → ℚ) (minz : Bool) :
    ∀ (cands : List ℕ) (mp : List el_t) (acc : DReal),
      labels_sorted mp → List.Pairwise (· < ·) cands →
      bestq_cands nodes point minz mp cands acc =
        bestq_all nodes point minz (cand_entries mp cands) acc
  | [], mp, acc, _, _ => by
    have hf : cand_entries mp [] = [] :=
      List.filter_eq_nil_iff.mpr (fun e _ => by simp)
    rw [hf]
    rfl
  | c :: cs, mp, acc, hmp, hcands => by
    have hsplit : mp.takeWhile (fun e => decide (e.label < c)) ++
        mp.dropWhile (fun e => decide (e.label < c)) = mp :=
      List.takeWhile_append_dropWhile _ _
    have hclt : ∀ x ∈ cs, c < x := (List.pairwise_cons.mp hcands).1
    have hcs : List.Pairwise (· < ·) cs := (List.pairwise_cons.mp hcands).2
    have hpre : ∀ e ∈ mp.takeWhile (fun x => decide (x.label < c)),
        ¬(decide (e.label ∈ c :: cs) = true) := by
      intro e he
      have hlt0 := List.mem_takeWhile_imp he
      have hlt : e.label < c := by simpa using hlt0
      simp only [decide_eq_true_eq]
      intro hmem
      rcases List.mem_cons.mp hmem with h | hx
      · omega
      · have := hclt _ hx
        omega
    have hfilter : cand_entries mp (c :: cs) =
        cand_entries (mp.dropWhile (fun e => decide (e.label < c))) (c :: cs) := by
      unfold cand_entries
      conv_lhs => rw [← hsplit]
      rw [List.filter_append, List.filter_eq_nil_iff.mpr hpre, List.nil_append]
    cases hpost : mp.dropWhile (fun e => decide (e.label < c)) with
    | nil =>
      rw [hfilter, hpost]
      simp only [bestq_cands, hpost, cand_entries, List.filter_nil]
      rfl
    | cons e rest =>
      have hsort : labels_sorted (e :: rest) := by
        have hsub : List.Sublist (mp.dropWhile (fun x : el_t => decide (x.label < c))) mp :=
          List.dropWhile_sublist (fun x : el_t => decide (x.label < c))
        have := List.Pairwise.sublist hsub hmp
        rwa [hpost] at this
      have he_lt : ∀ x ∈ rest, e.label < x.label := (List.pairwise_cons.mp hsort).1
      have hege : ¬ e.label < c :=
        of_decide_eq_false (dropWhile_head_false hpost)
      by_cases hec : e.label = c
      · have hrest_filter : rest.filter (fun x => decide (x.label ∈ c :: cs)) =
            rest.filter (fun x => decide (x.label ∈ cs)) := by
          refine List.filter_congr ?_
          intro x hx
          have hgt := he_lt x hx
          simp only [List.mem_cons, decide_eq_decide]
          constructor
          · rintro (h | h)
            · omega
            · exact h
          · exact Or.inr
        have hnotc : ¬ e.label ∈ cs := by
          intro hx
          have := hclt _ hx
          omega
        have hstep : bestq_cands nodes point minz mp (c :: cs) acc =
            bestq_cands nodes point minz (e :: rest) cs
              (best_step minz acc (leaf_q nodes point e)) := by
          simp only [bestq_cands, hpost]
          rw [if_neg (not_not_intro hec)]
        have hL : (e :: rest).filter (fun x => decide (x.label ∈ cs)) =
            rest.filter (fun x => decide (x.label ∈ cs)) := by
          rw [List.filter_cons_of_neg (by simpa using hnotc)]
        have hR : (e :: rest).filter (fun x => decide (x.label ∈ c :: cs)) =
            e :: rest.filter (fun x => decide (x.label ∈ c :: cs)) := by
          rw [List.filter_cons_of_pos (by simp [hec])]
        rw [hstep,
          bestq_cands_filter nodes point minz cs (e :: rest) _ hsort hcs,
          hfilter, hpost]
        unfold cand_entries
        rw [hL, hR, hrest_filter]
        rfl
      · have hgt : c < e.label := by omega
        have hfilter2 : (e :: rest).filter (fun x => decide (x.label ∈ c :: cs)) =
            (e :: rest).filter (fun x => decide (x.label ∈ cs)) := by
          refine List.filter_congr ?_
          intro x hx
          have hxgt : c < x.label := by
            rcases List.mem_cons.mp hx with rfl | hx2
            · omega
            · have := he_lt x hx2
              omega
          simp only [List.mem_cons, decide_eq_decide]
          constructor
          · rintro (h | h)
            · omega
            · exact h
          · exact Or.inr
        have hstep : bestq_cands nodes point minz mp (c :: cs) acc =
            bestq_cands nodes point minz (e :: rest) cs acc := by
          simp only [bestq_cands, hpost]
          rw [if_pos hec]
        rw [hstep, bestq_cands_filter nodes point minz cs (e :: rest) acc hsort hcs,
          hfilter, hpost]
        unfold cand_entries
        rw [hfilter2]

/-- C7: `getBestQ` skips every label whose leaf prediction is infinite
or NaN.  With a null candidate set it returns the minimum (minimize) or
maximum (maximize) of the remaining finite leaf means, and the infinite
sentinel of matching sign when no finite candidate exists; with any
candidate list (pre-sorted, as the source requires of its caller, over
the sorted label index) the same holds with the aggregated labels being
exactly the index entries whose label lies in the candidate set.  On
the spec §8 scenario {A: 3.0, B: 1.0, C: NaN} it returns 1.0
minimizing, 3.0 maximizing, 1.0 on candidate set {B}, and the matching
infinite sentinel on an empty or all-NaN candidate set. -/
theorem getBestQ_spec :
    (∀ (t : RefinementTree) (point : ℕ → ℚ),
      fin_qs t.nodes point t.mapping = [] →
        getBestQ t point true none = DReal.inf ∧
        getBestQ t point false none = DReal.ninf) ∧
    (∀ (t : RefinementTree) (point : ℕ → ℚ),
      fin_qs t.nodes point t.mapping ≠ [] →
        (∃ m, getBestQ t point true none = DReal.val m ∧
          m ∈ fin_qs t.nodes point t.mapping ∧
          ∀ y ∈ fin_qs t.nodes point t.mapping, m ≤ y) ∧
        (∃ m, getBestQ t point false none = DReal.val m ∧
          m ∈ fin_qs t.nodes point t.mapping ∧
          ∀ y ∈ fin_qs t.nodes point t.mapping, y ≤ m)) ∧
    (∀ (t : RefinementTree) (point : ℕ → ℚ) (cands : List ℕ),
      labels_sorted t.mapping → List.Pairwise (· < ·) cands →
      fin_qs t.nodes point (cand_entries t.mapping cands) = [] →
        getBestQ t point true (some cands) = DReal.inf ∧
        getBestQ t point false (some cands) = DReal.ninf) ∧
    (∀ (t : RefinementTree) (point : ℕ → ℚ) (cands : List ℕ),
      labels_sorted t.mapping → List.Pairwise (· < ·) cands →
      fin_qs t.nodes point (cand_entries t.mapping cands) ≠ [] →
        (∃ m, getBestQ t point true (some cands) = DReal.val m ∧
          m ∈ fin_qs t.nodes point (cand_entries t.mapping cands) ∧
          ∀ y ∈ fin_qs t.nodes point (cand_entries t.mapping cands), m ≤ y) ∧
        (∃ m, getBestQ t point false (some cands) = DReal.val m ∧
          m ∈ fin_qs t.nodes point (cand_entries t.mapping cands) ∧
          ∀ y ∈ fin_qs t.nodes point (cand_entries t.mapping cands), y ≤ m)) ∧
    (getBestQ t_best (fun _ => 0) true none = DReal.val 1 ∧
     getBestQ t_best (fun _ => 0) false none = DReal.val 3 ∧
     getBestQ t_best (fun _ => 0) true (some [1]) = DReal.val 1 ∧
     getBestQ t_best (fun _ => 0) false (some [1]) = DReal.val 1 ∧
     getBestQ t_best (fun _ => 0) true (some []) = DReal.inf ∧
     getBestQ t_best (fun _ => 0) false (some []) = DReal.ninf ∧
     getBestQ t_best (fun _ => 0) true (some [2]) = DReal.inf ∧
     getBestQ t_best (fun _ => 0) false (some [2]) = DReal.ninf) := by
  have hmin : ∀ (t : RefinementTree) (point : ℕ → ℚ),
      getBestQ t point true none =
        ((fin_qs t.nodes point t.mapping).foldl omin none).elim DReal.inf DReal.val := by
    intro t point
    have := bestq_all_min_fold t.nodes point t.mapping none
    simpa [getBestQ] using this
  have hmax : ∀ (t : RefinementTree) (point : ℕ → ℚ),
      getBestQ t point false none =
        ((fin_qs t.nodes point t.mapping).foldl omax none).elim DReal.ninf DReal.val := by
    intro t point
    have := bestq_all_max_fold t.nodes point t.mapping none
    simpa [getBestQ] using this
  have hmin_c : ∀ (t : RefinementTree) (point : ℕ → ℚ) (cands : List ℕ),
      labels_sorted t.mapping → List.Pairwise (· < ·) cands →
      getBestQ t point true (some cands) =
        ((fin_qs t.nodes point (cand_entries t.mapping cands)).foldl omin none).elim
          DReal.inf DReal.val := by
    intro t point cands hm hc
    have h1 : getBestQ t point true (some cands) =
        bestq_cands t.nodes point true t.mapping cands DReal.inf := by
      simp [getBestQ]
    rw [h1, bestq_cands_filter t.nodes point true cands t.mapping DReal.inf hm hc]
    have := bestq_all_min_fold t.nodes point (cand_entries t.mapping cands) none
    simpa using this
  have hmax_c : ∀ (t : RefinementTree) (point : ℕ → ℚ) (cands : List ℕ),
      labels_sorted t.mapping → List.Pairwise (· < ·) cands →
      getBestQ t point false (some cands) =
        ((fin_qs t.nodes point (cand_entries t.mapping cands)).foldl omax none).elim
          DReal.ninf DReal.val := by
    intro t point cands hm hc
    have h1 : getBestQ t point false (some cands) =
        bestq_cands t.nodes point false t.mapping cands DReal.ninf := by
      simp [getBestQ]
    rw [h1, bestq_cands_filter t.nodes point false cands t.mapping DReal.ninf hm hc]
    have := bestq_all_max_fold t.nodes point (cand_entries t.mapping cands) none
    simpa using this
  refine ⟨?_, ?_, ?_, ?_, ?_⟩
  · intro t point h
    rw [hmin, hmax, h]
    exact ⟨rfl, rfl⟩
  · intro t point h
    constructor
    · obtain ⟨m, hm, hmem, hall⟩ := foldl_omin_min _ h
      exact ⟨m, by rw [hmin, hm]; rfl, hmem, hall⟩
    · obtain ⟨m, hm, hmem, hall⟩ := foldl_omax_max _ h
      exact ⟨m, by rw [hmax, hm]; rfl, hmem, hall⟩
  · intro t point cands hsm hsc h
    rw [hmin_c t point cands hsm hsc, hmax_c t point cands hsm hsc, h]
    exact ⟨rfl, rfl⟩
  · intro t point cands hsm hsc h
    constructor
    · obtain ⟨m, hm, hmem, hall⟩ := foldl_omin_min _ h
      exact ⟨m, by rw [hmin_c t point cands hsm hsc, hm]; rfl, hmem, hall⟩
    · obtain ⟨m, hm, hmem, hall⟩ := foldl_omax_max _ h
      exact ⟨m, by rw [hmax_c t point cands hsm hsc, hm]; rfl, hmem, hall⟩
  · exact ⟨by decide, by decide, by decide, by decide, by decide, by decide, by decide,
      by decide⟩

theorem tree_update_mem (t : RefinementTree) (label : ℕ) (point : ℕ → ℚ)
    (f : List node_t → ℕ → List node_t) (e : el_t) (he : e ∈ t.mapping) :
    e ∈ (tree_update t label point f).mapping := by
  have hsplit : t.mapping.takeWhile (fun x => decide (x.label < label)) ++
      t.mapping.dropWhile (fun x => decide (x.label < label)) = t.mapping :=
    List.takeWhile_append_dropWhile _ _
  cases hp : t.mapping.dropWhile (fun x => decide (x.label < label)) with
  | nil =>
    simp only [tree_update, hp]
    have : e ∈ t.mapping.takeWhile (fun x => decide (x.label < label)) := by
      rw [← hsplit, hp, List.append_nil] at he
      exact he
    exact List.mem_append_left _ this
  | cons x xs =>
    simp only [tree_update, hp]
    by_cases hx : x.label = label
    · rw [if_pos hx]
      exact he
    · rw [if_neg hx]
      rw [← hsplit, hp] at he
      rcases List.mem_append.mp he with h | h
      · exact List.mem_append_left _ h
      · exact List.mem_append_right _ (List.mem_cons_of_mem _ h)

theorem tree_update_sorted (t : RefinementTree) (label : ℕ) (point : ℕ → ℚ)
    (f : List node_t → ℕ → List node_t) (hs : labels_sorted t.mapping) :
    labels_sorted (tree_update t label point f).mapping := by
  have hsplit : t.mapping.takeWhile (fun x => decide (x.label < label)) ++
      t.mapping.dropWhile (fun x => decide (x.label < label)) = t.mapping :=
    List.takeWhile_append_dropWhile _ _
  have hs2 : labels_sorted
      (t.mapping.takeWhile (fun x => decide (x.label < label)) ++
        t.mapping.dropWhile (fun x => decide (x.label < label))) := by
    rw [hsplit]; exact hs
  rw [labels_sorted, List.pairwise_append] at hs2
  obtain ⟨hpre, hpost, hcross⟩ := hs2
  have hpre_lt : ∀ a ∈ t.mapping.takeWhile (fun x => decide (x.label < label)),
      a.label < label := by
    intro a ha
    have := List.mem_takeWhile_imp ha
    exact of_decide_eq_true this
  cases hp : t.mapping.dropWhile (fun x => decide (x.label < label)) with
  | nil =>
    simp only [tree_update, hp]
    rw [labels_sorted, List.pairwise_append]
    refine ⟨hpre, List.pairwise_singleton _ _, ?_⟩
    intro a ha b hb
    rcases List.mem_singleton.mp hb with rfl
    exact hpre_lt a ha
  | cons x xs =>
    simp only [tree_update, hp]
    by_cases hx : x.label = label
    · rw [if_pos hx]; exact hs
    · rw [if_neg hx]
      have hxlab : label < x.label := by
        have hnot : (fun y : el_t => decide (y.label < label)) x = false :=
          dropWhile_head_false hp
        have : ¬ x.label < label := of_decide_eq_false hnot
        omega
      rw [hp] at hpost hcross
      rw [labels_sorted, List.pairwise_append]
      refine ⟨hpre, ?_, ?_⟩
      · rw [List.pairwise_cons]
        refine ⟨?_, hpost⟩
        intro b hb
        rcases List.mem_cons.mp hb with rfl | hb2
        · exact hxlab
        · have := (List.pairwise_cons.mp hpost).1 b hb2
          show label < b.label
          omega
      · intro a ha b hb
        rcases List.mem_cons.mp hb with rfl | hb2
        · exact hpre_lt a ha
        · exact hcross a ha b hb2

theorem tree_update_has_label (t : RefinementTree) (label : ℕ) (point : ℕ → ℚ)
    (f : List node_t → ℕ → List node_t) (lab : ℕ) :
    has_label (tree_update t label point f).mapping lab ↔
      (has_label t.mapping lab ∨ lab = label) := by
  have hsplit : t.mapping.takeWhile (fun x => decide (x.label < label)) ++
      t.mapping.dropWhile (fun x => decide (x.label < label)) = t.mapping :=
    List.takeWhile_append_dropWhile _ _
  cases hp : t.mapping.dropWhile (fun x => decide (x.label < label)) with
  | nil =>
    simp only [tree_update, hp]
    constructor
    · rintro ⟨e, he, rfl⟩
      rcases List.mem_append.mp he with h | h
      · exact Or.inl ⟨e, by rw [← hsplit, hp, List.append_nil]; exact h, rfl⟩
      · rcases List.mem_singleton.mp h with rfl
        exact Or.inr rfl
    · rintro (⟨e, he, rfl⟩ | rfl)
      · exact ⟨e, List.mem_append_left _ (by rw [← hsplit, hp, List.append_nil] at he; exact he), rfl⟩
      · exact ⟨el_t.mk lab t.nodes.length, List.mem_append_right _ (List.mem_singleton_self _), rfl⟩
  | cons x xs =>
    simp only [tree_update, hp]
    by_cases hx : x.label = label
    · rw [if_pos hx]
      constructor
      · exact Or.inl
      · rintro (h | rfl)
        · exact h
        · refine ⟨x, ?_, hx⟩
          rw [← hsplit, hp]
          exact List.mem_append_right _ (List.mem_cons_self _ _)
    · rw [if_neg hx]
      constructor
      · rintro ⟨e, he, rfl⟩
        rcases List.mem_append.mp he with h | h
        · exact Or.inl ⟨e, by rw [← hsplit, hp]; exact List.mem_append_left _ h, rfl⟩
        · rcases List.mem_cons.mp h with rfl | h2
          · exact Or.inr rfl
          · exact Or.inl ⟨e, by
              rw [← hsplit, hp]
              exact List.mem_append_right _ h2, rfl⟩
      · rintro (⟨e, he, rfl⟩ | rfl)
        · rw [← hsplit, hp] at he
          rcases List.mem_append.mp he with h | h
          · exact ⟨e, List.mem_append_left _ h, rfl⟩
          · exact ⟨e, List.mem_append_right _ (List.mem_cons_of_mem _ h), rfl⟩
        · exact ⟨el_t.mk lab t.nodes.length,
            List.mem_append_right _ (List.mem_cons_self _ _), rfl⟩

theorem tree_update_absent (t : RefinementTree) (label : ℕ) (point : ℕ → ℚ)
    (f : List node_t → ℕ → List node_t) (h : ∀ e ∈ t.mapping, e.label ≠ label) :
    (tree_update t label point f).nodes =
      f (t.nodes ++ [fresh_node])
        (get_leaf (t.nodes ++ [fresh_node]) point (t.nodes ++ [fresh_node]).length
          t.nodes.length) ∧
    el_t.mk label t.nodes.length ∈ (tree_update t label point f).mapping := by
  cases hp : t.mapping.dropWhile (fun x => decide (x.label < label)) with
  | nil =>
    simp only [tree_update, hp]
    constructor
    · trivial
    · exact List.mem_append_right _ (List.mem_singleton_self _)
  | cons x xs =>
    have hxmem : x ∈ t.mapping := by
      have : x ∈ t.mapping.dropWhile (fun y => decide (y.label < label)) := by
        rw [hp]; exact List.mem_cons_self _ _
      exact (List.dropWhile_sublist _).subset this
    simp only [tree_update, hp]
    rw [if_neg (h x hxmem)]
    constructor
    · trivial
    · exact List.mem_append_right _ (List.mem_cons_self _ _)

theorem run_updates_mem (e : el_t) :
    ∀ (seq : List (ℕ × (ℕ → ℚ) × (List node_t → ℕ → List node_t)))
      (t : RefinementTree), e ∈ t.mapping → e ∈ (run_updates t seq).mapping
  | [], _, he => he
  | u :: rest, t, he =>
    run_updates_mem e rest (tree_update t u.1 u.2.1 u.2.2)
      (tree_update_mem t u.1 u.2.1 u.2.2 e he)

theorem run_updates_sorted :
    ∀ (seq : List (ℕ × (ℕ → ℚ) × (List node_t → ℕ → List node_t)))
      (t : RefinementTree), labels_sorted t.mapping →
        labels_sorted (run_updates t seq).mapping
  | [], _, hs => hs
  | u :: rest, t, hs =>
    run_updates_sorted rest (tree_update t u.1 u.2.1 u.2.2)
      (tree_update_sorted t u.1 u.2.1 u.2.2 hs)

theorem run_updates_has_label :
    ∀ (seq : List (ℕ × (ℕ → ℚ) × (List node_t → ℕ → List node_t)))
      (t : RefinementTree) (lab : ℕ),
      has_label (run_updates t seq).mapping lab ↔
        (has_label t.mapping lab ∨ lab ∈ seq.map (fun u => u.1))
  | [], t, lab => by simp [run_updates]
  | u :: rest, t, lab => by
    simp only [run_updates, List.map_cons, List.mem_cons]
    rw [run_updates_has_label rest (tree_update t u.1 u.2.1 u.2.2) lab,
      tree_update_has_label]
    tauto

theorem sorted_filter_label_le_one (lab : ℕ) :
    ∀ (m : List el_t), labels_sorted m →
      (m.filter (fun e => decide (e.label = lab))).length ≤ 1
  | [], _ => by simp
  | a :: m, hs => by
    have hrest := (List.pairwise_cons.mp hs).2
    have hlt := (List.pairwise_cons.mp hs).1
    by_cases ha : a.label = lab
    · rw [List.filter_cons_of_pos (by simpa using ha)]
      have hnil : m.filter (fun e => decide (e.label = lab)) = [] := by
        refine List.filter_eq_nil_iff.mpr ?_
        intro b hb
        have := hlt b hb
        simp only [decide_eq_true_eq]
        omega
      rw [hnil]
      simp
    · rw [List.filter_cons_of_neg (by simpa using ha)]
      exact sorted_filter_label_le_one lab m hrest

/-- C9: across any sequence of update calls the label index stays
strictly sorted by label (hence holds at most one entry per label); a
label has an entry exactly when some update used it; an update with an
unseen label appends one fresh leaf to the arena (at index
`nodes.length`, before the leaf update runs) and inserts that index as
the label's root; and an existing entry — its root index included — is
never changed or removed by later updates. -/
theorem forest_index_contract :
    (∀ seq, labels_sorted (run_updates ({} : RefinementTree) seq).mapping) ∧
    (∀ seq lab,
      ((run_updates ({} : RefinementTree) seq).mapping.filter
        (fun e => decide (e.label = lab))).length ≤ 1) ∧
    (∀ seq lab, has_label (run_updates ({} : RefinementTree) seq).mapping lab ↔
      lab ∈ seq.map (fun u => u.1)) ∧
    (∀ (t : RefinementTree) (label : ℕ) (point : ℕ → ℚ)
      (f : List node_t → ℕ → List node_t),
      (∀ e ∈ t.mapping, e.label ≠ label) →
      (tree_update t label point f).nodes =
        f (t.nodes ++ [fresh_node])
          (get_leaf (t.nodes ++ [fresh_node]) point (t.nodes ++ [fresh_node]).length
            t.nodes.length) ∧
      el_t.mk label t.nodes.length ∈ (tree_update t label point f).mapping) ∧
    (∀ (t : RefinementTree) seq (e : el_t), e ∈ t.mapping →
      e ∈ (run_updates t seq).mapping) := by
  refine ⟨?_, ?_, ?_, ?_, ?_⟩
  · intro seq
    exact run_updates_sorted seq {} (List.Pairwise.nil)
  · intro seq lab
    exact sorted_filter_label_le_one lab _
      (run_updates_sorted seq {} (List.Pairwise.nil))
  · intro seq lab
    rw [run_updates_has_label]
    simp [has_label]
  · exact tree_update_absent
  · intro t seq e he
    exact run_updates_mem e seq t he

theorem forest_index_contract_w :
    el_t.mk 5 1 ∈ (tree_update { nodes := [{}], mapping := [{ label := 1, nid := 0 }] }
      5 (fun _ => 0) (fun ns _ => ns)).mapping :=
  (forest_index_contract.2.2.2.1 { nodes := [{}], mapping := [{ label := 1, nid := 0 }] }
    5 (fun _ => 0) (fun ns _ => ns) (by decide)).2

theorem getBestQ_spec_w :
    ((∃ m, getBestQ t_best (fun _ => 0) true none = DReal.val m ∧
      m ∈ fin_qs t_best.nodes (fun _ => 0) t_best.mapping ∧
      ∀ y ∈ fin_qs t_best.nodes (fun _ => 0) t_best.mapping, m ≤ y) ∧
    (∃ m, getBestQ t_best (fun _ => 0) false none = DReal.val m ∧
      m ∈ fin_qs t_best.nodes (fun _ => 0) t_best.mapping ∧
      ∀ y ∈ fin_qs t_best.nodes (fun _ => 0) t_best.mapping, y ≤ m)) ∧
    (∃ m, getBestQ t_best (fun _ => 0) true (some [0, 1]) = DReal.val m ∧
      m ∈ fin_qs t_best.nodes (fun _ => 0) (cand_entries t_best.mapping [0, 1]) ∧
      ∀ y ∈ fin_qs t_best.nodes (fun _ => 0) (cand_entries t_best.mapping [0, 1]),
        m ≤ y) :=
  ⟨getBestQ_spec.2.1 t_best (fun _ => 0) (by decide),
   (getBestQ_spec.2.2.2.1 t_best (fun _ => 0) [0, 1]
      (by unfold labels_sorted; decide) (by decide) (by decide)).1⟩

end ReadModel

theorem node_update_nosplit_eq {F : Type} (ops : splitfilter_ops F)
    (approx : qvar_t → qvar_t → qvar_t) (pred : qpred_t F) (point : ℕ → ℚ)
    (dimen : ℕ) (nval delta : ℚ) (opts : propts_t) (rands : ℕ → ℕ)
    (hc : (leaf_cs ops opts delta nval point dimen pred).isEmpty = true) :
    node_update ops approx pred point dimen nval delta opts rands =
      update_result.noSplit (nosplit_result ops approx pred point dimen nval delta opts) := by
  simp only [node_update, hc, if_true]

theorem node_update_split_eq {F : Type} (ops : splitfilter_ops F)
    (approx : qvar_t → qvar_t → qvar_t) (pred : qpred_t F) (point : ℕ → ℚ)
    (dimen : ℕ) (nval delta : ℚ) (opts : propts_t) (rands : ℕ → ℕ)
    (hc : (leaf_cs ops opts delta nval point dimen pred).isEmpty = false) :
    node_update ops approx pred point dimen nval delta opts rands =
      update_result.split (split_result ops pred point dimen nval delta opts rands) := by
  simp only [node_update, hc, Bool.false_eq_true, if_false]

theorem updated_q_cnt_pos (q : qvar_t) (opts : propts_t) (nval : ℚ) :
    0 < (updated_q q opts nval).cnt := by
  simp [updated_q, qvar_t.addObs]

theorem seed_q_cnt_pos (oq q0 : qvar_t) (hoq : 0 < oq.cnt) :
    0 < (seed_q oq q0).cnt := by
  unfold seed_q
  by_cases h : 0 < oq.cnt ∧ q0.cnt = 0
  · rw [if_pos h]
    exact Nat.one_pos
  · rw [if_neg h]
    omega

theorem seed_q_zero (oq q0 : qvar_t) (hoq : 0 < oq.cnt) (h0 : q0.cnt = 0) :
    seed_q oq q0 = { avg := oq.avg, cnt := 1, variance := 0 } := by
  unfold seed_q
  rw [if_pos ⟨hoq, h0⟩]

theorem seed_q_nonzero (oq q0 : qvar_t) (h0 : q0.cnt ≠ 0) :
    seed_q oq q0 = q0 := by
  unfold seed_q
  rw [if_neg (by omega)]

theorem selRev_le_length : ∀ l : List ℕ, selRev l ≤ l.length
  | [] => le_refl 0
  | v :: rest => by
    simp only [selRev, List.length_cons]
    by_cases hv : v = 0
    · rw [if_pos hv]
    · rw [if_neg hv]
      exact (selRev_le_length rest).trans (Nat.le_succ _)

theorem selPos_le_length (l : List ℕ) : selPos l ≤ l.length := by
  have := selRev_le_length l.reverse
  simpa [selPos] using this

theorem selRev_pos : ∀ {l : List ℕ}, 0 ∈ l → 1 ≤ selRev l := by
  intro l
  induction l with
  | nil => intro h; cases h
  | cons v rest ih =>
    intro h
    simp only [selRev]
    by_cases hv : v = 0
    · rw [if_pos hv]; omega
    · rw [if_neg hv]
      refine ih ?_
      rcases List.mem_cons.mp h with h0 | h2
      · exact absurd h0.symm hv
      · exact h2

theorem selPos_pos {l : List ℕ} (h : 0 ∈ l) : 1 ≤ selPos l :=
  selRev_pos (List.mem_reverse.mpr h)

theorem selPos_append (l : List ℕ) (v : ℕ) :
    selPos (l ++ [v]) = if v = 0 then l.length + 1 else selPos l := by
  simp [selPos, List.reverse_append, selRev]

theorem residues_length (rands : ℕ → ℕ) (m : ℕ) : (residues rands m).length = m := by
  simp [residues]

theorem residues_succ (rands : ℕ → ℕ) (m : ℕ) :
    residues rands (m + 1) = residues rands m ++ [rands (m + 1) % (m + 1)] := by
  simp [residues, List.range_succ]

theorem residues_zero_mem (rands : ℕ → ℕ) (m : ℕ) (hm : 1 ≤ m) :
    0 ∈ residues rands m := by
  refine List.mem_map.mpr ⟨0, List.mem_range.mpr hm, ?_⟩
  simp [Nat.mod_one]

theorem resTuples_length : ∀ (m : ℕ) (l : List ℕ), l ∈ resTuples m → l.length = m
  | 0, l, h => by
    simp only [resTuples, Finset.mem_singleton] at h
    subst h; rfl
  | m + 1, l, h => by
    simp only [resTuples, Finset.mem_image] at h
    obtain ⟨p, hp, rfl⟩ := h
    have := resTuples_length m p.1 (Finset.mem_product.mp hp).1
    simp [this]

theorem residues_mem_resTuples (rands : ℕ → ℕ) : ∀ m, residues rands m ∈ resTuples m
  | 0 => by simp [residues, resTuples]
  | m + 1 => by
    rw [residues_succ]
    simp only [resTuples, Finset.mem_image]
    refine ⟨(residues rands m, rands (m + 1) % (m + 1)), ?_, rfl⟩
    rw [Finset.mem_product]
    exact ⟨residues_mem_resTuples rands m,
      Finset.mem_range.mpr (Nat.mod_lt _ (Nat.succ_pos m))⟩

theorem svarFold_append (rands : ℕ → ℕ) :
    ∀ (xs ys : List ℕ) (k s : ℕ),
      svarFold rands (xs ++ ys) k s =
        svarFold rands ys (k + xs.length) (svarFold rands xs k s)
  | [], ys, k, s => by simp [svarFold]
  | c :: xs, ys, k, s => by
    simp only [List.cons_append, svarFold, List.length_cons, List.append_eq]
    rw [svarFold_append rands xs ys (k + 1)]
    have harith : k + 1 + xs.length = k + (xs.length + 1) := by omega
    rw [harith]

theorem svarFold_selPos (rands : ℕ → ℕ) (cs : List ℕ) :
    svarFold rands cs 0 0 =
      cs.getD (selPos (residues rands cs.length) - 1) 0 := by
  induction cs using List.reverseRecOn with
  | nil => rfl
  | append_singleton l a ih =>
    have hlen : (l ++ [a]).length = l.length + 1 := by simp
    rw [svarFold_append rands l [a] 0 0, hlen, residues_succ, selPos_append,
      residues_length]
    by_cases hv : rands (l.length + 1) % (l.length + 1) = 0
    · rw [if_pos hv]
      simp only [svarFold, Nat.zero_add, if_pos hv, Nat.add_sub_cancel]
      rw [List.getD_append_right l [a] 0 l.length (le_refl _)]
      simp
    · rw [if_neg hv]
      simp only [svarFold, Nat.zero_add, if_neg hv]
      rw [ih]
      cases l with
      | nil => exact absurd (Nat.mod_one _) hv
      | cons b bs =>
        have hp1 : 1 ≤ selPos (residues rands (b :: bs).length) :=
          selPos_pos (residues_zero_mem rands _ (by simp))
        have hp2 : selPos (residues rands (b :: bs).length) ≤ (b :: bs).length := by
          have := selPos_le_length (residues rands (b :: bs).length)
          rwa [residues_length] at this
        have hlen2 : (b :: bs).length = bs.length + 1 := by simp
        rw [hlen2] at hp1 hp2
        rw [List.getD_append _ _ _ _ (by simp only [List.length_cons]; omega)]

theorem resTuples_card : ∀ m, (resTuples m).card = m.factorial
  | 0 => by simp [resTuples]
  | m + 1 => by
    rw [resTuples, Finset.card_image_of_injOn, Finset.card_product, resTuples_card m,
      Finset.card_range, Nat.factorial_succ]
    · ring
    · intro p hp q hq hpq
      have hp1 := resTuples_length m p.1 (Finset.mem_product.mp hp).1
      have hq1 := resTuples_length m q.1 (Finset.mem_product.mp hq).1
      obtain ⟨h1, h2⟩ := List.append_inj hpq (by rw [hp1, hq1])
      exact Prod.ext h1 (by simpa using h2)

theorem resTuples_filter_selPos :
    ∀ (m j : ℕ), 1 ≤ j → j ≤ m →
      ((resTuples m).filter (fun l => selPos l = j)).card = (m - 1).factorial
  | 0, j, hj1, hj2 => by omega
  | m + 1, j, hj1, hj2 => by
    have hinj : Set.InjOn (fun p : List ℕ × ℕ => p.1 ++ [p.2])
        ((resTuples m ×ˢ Finset.range (m + 1)).filter
          (fun p => selPos (p.1 ++ [p.2]) = j)) := by
      intro p hp q hq hpq
      have hp1 := resTuples_length m p.1
        (Finset.mem_product.mp (Finset.mem_of_mem_filter _ hp)).1
      have hq1 := resTuples_length m q.1
        (Finset.mem_product.mp (Finset.mem_of_mem_filter _ hq)).1
      obtain ⟨h1, h2⟩ := List.append_inj hpq (by rw [hp1, hq1])
      exact Prod.ext h1 (by simpa using h2)
    rw [resTuples, Finset.filter_image, Finset.card_image_of_injOn hinj]
    have hcong : (resTuples m ×ˢ Finset.range (m + 1)).filter
        (fun p => selPos (p.1 ++ [p.2]) = j) =
        (resTuples m ×ˢ Finset.range (m + 1)).filter
        (fun p => if p.2 = 0 then m + 1 = j else selPos p.1 = j) := by
      refine Finset.filter_congr ?_
      intro p hp
      have hlen := resTuples_length m p.1 (Finset.mem_product.mp hp).1
      rw [selPos_append, hlen]
      by_cases h2 : p.2 = 0
      · rw [if_pos h2, if_pos h2]
      · rw [if_neg h2, if_neg h2]
    rw [hcong, Finset.card_filter, Finset.sum_product]
    have hinner : ∀ l ∈ resTuples m,
        (∑ v ∈ Finset.range (m + 1),
          ite (if v = 0 then m + 1 = j else selPos l = j) 1 0) =
        m * (ite (selPos l = j) 1 0) + ite (m + 1 = j) 1 0 := by
      intro l _
      rw [Finset.sum_range_succ']
      have h0 : (ite (if (0 : ℕ) = 0 then m + 1 = j else selPos l = j) 1 0) =
          ite (m + 1 = j) 1 0 := by simp
      have hsum : (∑ i ∈ Finset.range m,
          ite (if i + 1 = 0 then m + 1 = j else selPos l = j) 1 0) =
          m * ite (selPos l = j) 1 0 := by
        have hcg : ∀ i ∈ Finset.range m,
            ite (if i + 1 = 0 then m + 1 = j else selPos l = j) 1 0 =
            ite (selPos l = j) 1 0 := fun i _ => by simp
        rw [Finset.sum_congr rfl hcg, Finset.sum_const, Finset.card_range, smul_eq_mul]
      rw [h0, hsum]
    rw [Finset.sum_congr rfl hinner]
    by_cases hj : j = m + 1
    · subst hj
      have hz : ∀ l ∈ resTuples m,
          m * (ite (selPos l = m + 1) 1 0) + ite (m + 1 = m + 1) 1 0 = 1 := by
        intro l hl
        have hle : selPos l ≤ m := by
          have := selPos_le_length l
          rw [resTuples_length m l hl] at this
          exact this
        have hne : selPos l ≠ m + 1 := by omega
        simp [hne]
      rw [Finset.sum_congr rfl hz, Finset.sum_const, resTuples_card, smul_eq_mul,
        mul_one, Nat.add_sub_cancel]
    · have hjm : j ≤ m := by omega
      have hm1 : 1 ≤ m := le_trans hj1 hjm
      have hz : ∀ l ∈ resTuples m,
          m * (ite (selPos l = j) 1 0) + ite (m + 1 = j) 1 0 =
            m * (ite (selPos l = j) 1 0) := by
        intro l _
        have hne : m + 1 ≠ j := fun h => hj h.symm
        simp [hne]
      rw [Finset.sum_congr rfl hz, ← Finset.mul_sum, ← Finset.card_filter,
        resTuples_filter_selPos m j hj1 hjm, Nat.add_sub_cancel]
      obtain ⟨k, rfl⟩ := Nat.exists_eq_add_of_le hm1
      rw [Nat.add_comm 1 k, Nat.succ_sub_one, Nat.factorial_succ]

/-- C1: every `node_t::update` call that triggers a split leaves both
child leaves with a strictly positive value-statistic count: a side of
the chosen dimension with observations is inherited unchanged, and a
side with zero observations is seeded with the pre-split leaf's overall
mean (the leaf mean after the just-added observation), count 1 and
variance 0. -/
theorem split_children_seeded {F : Type} (ops : splitfilter_ops F)
    (approx : qvar_t → qvar_t → qvar_t) (pred : qpred_t F) (point : ℕ → ℚ)
    (dimen : ℕ) (nval delta : ℚ) (opts : propts_t) (rands : ℕ → ℕ)
    (s : split_out F)
    (hs : (node_update ops approx pred point dimen nval delta opts rands).getSplit =
      some s) :
    0 < s.lowLeaf.q.cnt ∧ 0 < s.highLeaf.q.cnt ∧
    (((leaf_ds ops opts delta nval point dimen pred).getD s.svar
        (qdata_default ops)).lowq.cnt = 0 →
      s.lowLeaf.q = { avg := (updated_q pred.q opts nval).avg, cnt := 1, variance := 0 }) ∧
    (((leaf_ds ops opts delta nval point dimen pred).getD s.svar
        (qdata_default ops)).lowq.cnt ≠ 0 →
      s.lowLeaf.q = ((leaf_ds ops opts delta nval point dimen pred).getD s.svar
        (qdata_default ops)).lowq) ∧
    (((leaf_ds ops opts delta nval point dimen pred).getD s.svar
        (qdata_default ops)).highq.cnt = 0 →
      s.highLeaf.q = { avg := (updated_q pred.q opts nval).avg, cnt := 1, variance := 0 }) ∧
    (((leaf_ds ops opts delta nval point dimen pred).getD s.svar
        (qdata_default ops)).highq.cnt ≠ 0 →
      s.highLeaf.q = ((leaf_ds ops opts delta nval point dimen pred).getD s.svar
        (qdata_default ops)).highq) := by
  cases hc : (leaf_cs ops opts delta nval point dimen pred).isEmpty with
  | true =>
    rw [node_update_nosplit_eq ops approx pred point dimen nval delta opts rands hc] at hs
    simp [update_result.getSplit] at hs
  | false =>
    rw [node_update_split_eq ops approx pred point dimen nval delta opts rands hc] at hs
    simp only [update_result.getSplit, Option.some.injEq] at hs
    subst hs
    have hoq := updated_q_cnt_pos pred.q opts nval
    simp only [split_result]
    refine ⟨seed_q_cnt_pos _ _ hoq, seed_q_cnt_pos _ _ hoq, ?_, ?_, ?_, ?_⟩
    · intro h0; exact seed_q_zero _ _ hoq h0
    · intro h0; exact seed_q_nonzero _ _ h0
    · intro h0; exact seed_q_zero _ _ hoq h0
    · intro h0; exact seed_q_nonzero _ _ h0

theorem split_children_seeded_w :
    0 < s_c1.lowLeaf.q.cnt ∧ 0 < s_c1.highLeaf.q.cnt :=
  ⟨(split_children_seeded unit_ops (fun a _ => a) {} (fun _ => 0) 1 5 0
      { filter_val := 0 } (fun _ => 0) s_c1 (by decide)).1,
   (split_children_seeded unit_ops (fun a _ => a) {} (fun _ => 0) 1 5 0
      { filter_val := 0 } (fun _ => 0) s_c1 (by decide)).2.1⟩

/-- C2: an update splits iff at least one dimension's refreshed split
filter reached `filter_val` (and at most one split happens, by the shape
of `update_result`); a splitting update's dimension is the reservoir
choice over the candidate list in index order — the candidate at the
last 1-based position whose draw was 0 modulo that position — and over
the uniform space of residue tuples every candidate position j is chosen
by exactly (m-1)! of the m! tuples, i.e. uniformly at random. -/
theorem split_choice_reservoir {F : Type} (ops : splitfilter_ops F)
    (approx : qvar_t → qvar_t → qvar_t) (pred : qpred_t F) (point : ℕ → ℚ)
    (dimen : ℕ) (nval delta : ℚ) (opts : propts_t) :
    (∀ rands, ((node_update ops approx pred point dimen nval delta opts rands).isSplit =
        true ↔ leaf_cs ops opts delta nval point dimen pred ≠ [])) ∧
    (∀ rands (s : split_out F),
      (node_update ops approx pred point dimen nval delta opts rands).getSplit = some s →
      s.svar = (leaf_cs ops opts delta nval point dimen pred).getD
        (selPos (residues rands (leaf_cs ops opts delta nval point dimen pred).length) - 1)
        0 ∧
      residues rands (leaf_cs ops opts delta nval point dimen pred).length ∈
        resTuples (leaf_cs ops opts delta nval point dimen pred).length) ∧
    (∀ j, 1 ≤ j → j ≤ (leaf_cs ops opts delta nval point dimen pred).length →
      ((resTuples (leaf_cs ops opts delta nval point dimen pred).length).filter
          (fun l => selPos l = j)).card =
        ((leaf_cs ops opts delta nval point dimen pred).length - 1).factorial) := by
  refine ⟨?_, ?_, ?_⟩
  · intro rands
    cases hc : (leaf_cs ops opts delta nval point dimen pred).isEmpty with
    | true =>
      rw [node_update_nosplit_eq ops approx pred point dimen nval delta opts rands hc]
      simp only [update_result.isSplit]
      constructor
      · intro hx; exact absurd hx Bool.false_ne_true
      · intro hne; exact absurd (List.isEmpty_iff.mp hc) hne
    | false =>
      rw [node_update_split_eq ops approx pred point dimen nval delta opts rands hc]
      simp only [update_result.isSplit, true_iff]
      intro hnil
      rw [hnil] at hc
      simp at hc
  · intro rands s hs
    cases hc : (leaf_cs ops opts delta nval point dimen pred).isEmpty with
    | true =>
      rw [node_update_nosplit_eq ops approx pred point dimen nval delta opts rands hc] at hs
      simp [update_result.getSplit] at hs
    | false =>
      rw [node_update_split_eq ops approx pred point dimen nval delta opts rands hc] at hs
      simp only [update_result.getSplit, Option.some.injEq] at hs
      subst hs
      constructor
      · simp only [split_result]
        exact svarFold_selPos rands _
      · exact residues_mem_resTuples rands _
  · intro j hj1 hj2
    exact resTuples_filter_selPos _ j hj1 hj2

theorem split_choice_reservoir_w :
    ((node_update unit_ops (fun a _ => a) ({} : qpred_t Unit) (fun _ => 0) 2 1 0
        { filter_val := 0 } (fun _ => 0)).isSplit = true ↔
      leaf_cs unit_ops { filter_val := 0 } 0 1 (fun _ => 0) 2 ({} : qpred_t Unit) ≠ []) ∧
    ((node_update unit_ops0 (fun a _ => a) ({} : qpred_t Unit) (fun _ => 0) 2 1 0
        opts_c3 (fun _ => 0)).isSplit = true ↔
      leaf_cs unit_ops0 opts_c3 0 1 (fun _ => 0) 2 ({} : qpred_t Unit) ≠ []) ∧
    ((resTuples (leaf_cs unit_ops { filter_val := 0 } 0 1 (fun _ => 0) 2
        ({} : qpred_t Unit)).length).filter (fun l => selPos l = 1)).card =
      ((leaf_cs unit_ops { filter_val := 0 } 0 1 (fun _ => 0) 2
        ({} : qpred_t Unit)).length - 1).factorial :=
  ⟨(split_choice_reservoir unit_ops (fun a _ => a) {} (fun _ => 0) 2 1 0
      { filter_val := 0 }).1 (fun _ => 0),
   (split_choice_reservoir unit_ops0 (fun a _ => a) {} (fun _ => 0) 2 1 0
      opts_c3).1 (fun _ => 0),
   (split_choice_reservoir unit_ops (fun a _ => a) {} (fun _ => 0) 2 1 0
      { filter_val := 0 }).2.2 1 (by decide) (by decide)⟩

theorem rebal_dim_eq_spec {F : Type} (approx : qvar_t → qvar_t → qvar_t)
    (d : qdata_t F) : rebal_dim approx d = rebal_dim_spec approx d := by
  unfold rebal_dim rebal_dim_spec
  rw [Nat.max_comm d.hmid.cnt d.lmid.cnt, Nat.min_comm d.hmid.cnt d.lmid.cnt]
  by_cases h1 : 2 ≤ max d.lmid.cnt d.hmid.cnt ∧
      5 ^ min d.lmid.cnt d.hmid.cnt < max d.lmid.cnt d.hmid.cnt ∧
      d.midpoint.cnt < max d.lmid.cnt d.hmid.cnt
  · rw [if_pos h1]
    by_cases h2 : (d.lmid.merge d.hmid).avg = d.midpoint.avg
    · rw [if_pos h2, if_neg (fun h4 => h4.2.2.2 h2)]
    · rw [if_neg h2, if_pos ⟨le_max_iff.mp h1.1, h1.2.1, h1.2.2, h2⟩]
  · rw [if_neg h1, if_neg (fun h4 => h1 ⟨le_max_iff.mpr h4.1, h4.2.1, h4.2.2.1⟩)]

theorem rebal_dim_skip {F : Type} (approx : qvar_t → qvar_t → qvar_t)
    (d : qdata_t F) (heq : (d.lmid.merge d.hmid).avg = d.midpoint.avg) :
    rebal_dim approx d = (d, false) := by
  rw [rebal_dim_eq_spec]
  unfold rebal_dim_spec
  rw [if_neg (fun h4 => h4.2.2.2 heq)]

theorem rebal_dim_flag_false {F : Type} (approx : qvar_t → qvar_t → qvar_t)
    (d : qdata_t F) (h : (rebal_dim approx d).2 = false) :
    rebal_dim approx d = (d, false) := by
  rw [rebal_dim_eq_spec] at h ⊢
  unfold rebal_dim_spec at h ⊢
  by_cases h4 : (2 ≤ d.lmid.cnt ∨ 2 ≤ d.hmid.cnt) ∧
      5 ^ min d.lmid.cnt d.hmid.cnt < max d.lmid.cnt d.hmid.cnt ∧
      d.midpoint.cnt < max d.lmid.cnt d.hmid.cnt ∧
      (d.lmid.merge d.hmid).avg ≠ d.midpoint.avg
  · rw [if_pos h4] at h
    exact absurd h (by simp)
  · rw [if_neg h4]

/-- C3 counterexample: a concrete non-splitting update in which one
dimension meets all three count conditions of the claim, yet — because
the combined low+high midpoint average coincides with the current
midpoint estimate — the dimension is not rebalanced: the update returns
the refreshed data unchanged, the side count 2 is not halved and the
midpoint estimate keeps count 1.  The claim, which says the three count
conditions alone decide rebalancing, is therefore false on the code. -/
theorem rebalance_exact_cex :
    (2 ≤ max d_c3.hmid.cnt d_c3.lmid.cnt ∧
     5 ^ min d_c3.hmid.cnt d_c3.lmid.cnt < max d_c3.hmid.cnt d_c3.lmid.cnt ∧
     d_c3.midpoint.cnt < max d_c3.hmid.cnt d_c3.lmid.cnt) ∧
    node_update unit_ops0 (fun a _ => a) pred_c3 (fun _ => 2) 1 5 0 opts_c3
        (fun _ => 0) =
      update_result.noSplit
        { q := updated_q pred_c3.q opts_c3 5, cnt := 1, data := some ds_c3 } ∧
    d_c3.lmid.cnt = 2 ∧ d_c3.midpoint = ⟨2, 1⟩ := by
  decide

/-- C3 (amended): in a non-splitting update the per-dimension data is
transformed exactly by the spec-side rule `rebal_dim_spec` — a dimension
is rebalanced when, additionally to the three count conditions, the
combined low+high midpoint average differs from the current midpoint
estimate; rebalancing then sets both side midpoint statistics to the
combined one with halved count, count-weight-merges the combined
statistic into the midpoint estimate (rather than assigning it), and
splits the approximate-merged value statistic evenly into both sides —
and all split filters of the leaf are reset iff some dimension was
rebalanced. -/
theorem rebalance_amended {F : Type} (ops : splitfilter_ops F)
    (approx : qvar_t → qvar_t → qvar_t) (pred : qpred_t F) (point : ℕ → ℚ)
    (dimen : ℕ) (nval delta : ℚ) (opts : propts_t) (rands : ℕ → ℕ)
    (hc : (leaf_cs ops opts delta nval point dimen pred).isEmpty = true) :
    node_update ops approx pred point dimen nval delta opts rands =
      update_result.noSplit
        { q := updated_q pred.q opts nval
          cnt := pred.cnt + 1
          data := some (
            if ((leaf_ds ops opts delta nval point dimen pred).map
                (rebal_dim_spec approx)).any Prod.snd then
              reset_filters ops
                (((leaf_ds ops opts delta nval point dimen pred).map
                  (rebal_dim_spec approx)).map Prod.fst)
            else
              ((leaf_ds ops opts delta nval point dimen pred).map
                (rebal_dim_spec approx)).map Prod.fst) } := by
  rw [node_update_nosplit_eq ops approx pred point dimen nval delta opts rands hc]
  simp only [nosplit_result, rebal_all]
  have hmap : (leaf_ds ops opts delta nval point dimen pred).map (rebal_dim approx) =
      (leaf_ds ops opts delta nval point dimen pred).map (rebal_dim_spec approx) :=
    List.map_congr_left (fun d _ => rebal_dim_eq_spec approx d)
  rw [hmap]

theorem rebalance_amended_w :
    node_update unit_ops0 (fun a _ => a) pred_w3 (fun _ => 0) 1 5 0 opts_c3
        (fun _ => 0) =
      update_result.noSplit
        { q := ⟨5, 1, 0⟩
          cnt := 1
          data := some [⟨⟨4/3, 3⟩, ⟨5, 0, 0⟩, ⟨5, 0, 0⟩, ⟨2, 1⟩, ⟨2, 1⟩, ()⟩] } :=
  (rebalance_amended unit_ops0 (fun a _ => a) pred_w3 (fun _ => 0) 1 5 0 opts_c3
      (fun _ => 0) (by decide)).trans (by decide)

/-- C10: during a non-splitting update, a dimension that satisfies the
three rebalancing count conditions but whose combined low+high midpoint
average equals the current midpoint estimate is skipped entirely — its
per-dimension data (midpoint, side counts, value statistics, filter) is
returned unchanged — and when every dimension is skipped or fails the
conditions, the leaf's data is exactly the refreshed array with no
split-filter reset. -/
theorem rebalance_skip_equal_mid {F : Type} (ops : splitfilter_ops F)
    (approx : qvar_t → qvar_t → qvar_t) (pred : qpred_t F) (point : ℕ → ℚ)
    (dimen : ℕ) (nval delta : ℚ) (opts : propts_t) (rands : ℕ → ℕ)
    (hc : (leaf_cs ops opts delta nval point dimen pred).isEmpty = true) (i : ℕ)
    (_hcond : 2 ≤ max ((leaf_ds ops opts delta nval point dimen pred).getD i
        (qdata_default ops)).hmid.cnt
      ((leaf_ds ops opts delta nval point dimen pred).getD i
        (qdata_default ops)).lmid.cnt)
    (heq : (((leaf_ds ops opts delta nval point dimen pred).getD i
        (qdata_default ops)).lmid.merge
      ((leaf_ds ops opts delta nval point dimen pred).getD i
        (qdata_default ops)).hmid).avg =
      ((leaf_ds ops opts delta nval point dimen pred).getD i
        (qdata_default ops)).midpoint.avg) :
    rebal_dim approx ((leaf_ds ops opts delta nval point dimen pred).getD i
      (qdata_default ops)) =
      ((leaf_ds ops opts delta nval point dimen pred).getD i (qdata_default ops),
        false) ∧
    ((∀ d ∈ leaf_ds ops opts delta nval point dimen pred,
        (rebal_dim approx d).2 = false) →
      node_update ops approx pred point dimen nval delta opts rands =
        update_result.noSplit
          { q := updated_q pred.q opts nval
            cnt := pred.cnt + 1
            data := some (leaf_ds ops opts delta nval point dimen pred) }) := by
  constructor
  · exact rebal_dim_skip approx _ heq
  · intro hall
    rw [node_update_nosplit_eq ops approx pred point dimen nval delta opts rands hc]
    simp only [nosplit_result, rebal_all]
    have hmap : ((leaf_ds ops opts delta nval point dimen pred).map
        (rebal_dim approx)).map Prod.fst = leaf_ds ops opts delta nval point dimen pred := by
      rw [List.map_map]
      have : ∀ d ∈ leaf_ds ops opts delta nval point dimen pred,
          (Prod.fst ∘ rebal_dim approx) d = id d := by
        intro d hd
        have := rebal_dim_flag_false approx d (hall d hd)
        simp [this]
      rw [List.map_congr_left this, List.map_id]
    have hany : ((leaf_ds ops opts delta nval point dimen pred).map
        (rebal_dim approx)).any Prod.snd = false := by
      rw [List.any_eq_false]
      intro p hp
      obtain ⟨d, hd, rfl⟩ := List.mem_map.mp hp
      simp [hall d hd]
    rw [hany, hmap]
    simp

theorem rebalance_skip_equal_mid_w :
    rebal_dim (fun (a : qvar_t) (_ : qvar_t) => a)
      (ds_c10.getD 0 (qdata_default unit_ops0)) =
      (ds_c10.getD 0 (qdata_default unit_ops0), false) :=
  (rebalance_skip_equal_mid unit_ops0 (fun a _ => a) pred_c10 (fun _ => 3) 1 7 0
      opts_c3 (fun _ => 0) (by decide) 0 (by decide) (by decide)).1

namespace LP

/-- C5: the correction of a split leaf is absent when the leaf value
variance is exactly zero (the solve is skipped entirely and the prior —
null — correction is kept) or when the solver reports a non-optimal
outcome; it is stored exactly when the solver returns an optimal
solution, and then holds the dimen+1 primal values of the weight and
intercept columns.  Every path returns a value — nothing is fatal. -/
theorem set_correction_absent {F : Type} (ops : splitfilter_ops F)
    (dimen : ℕ) (sqrtQ : ℚ → ℚ) (q : qvar_t) (dd : List (qdata_t F))
    (solver : lp_state → solver_outcome) (prior : Option (List ℚ)) :
    (q.variance = 0 →
      set_correction ops dimen sqrtQ q dd solver prior = prior) ∧
    (q.variance ≠ 0 →
      ((solver (lp_build ops dimen sqrtQ q dd)).result = 0 ∧
          (solver (lp_build ops dimen sqrtQ q dd)).status = GLP_OPT →
        set_correction ops dimen sqrtQ q dd solver prior =
          some ((List.range (dimen + 1)).map
            (fun i => (solver (lp_build ops dimen sqrtQ q dd)).primal (i + 1)))) ∧
      (¬((solver (lp_build ops dimen sqrtQ q dd)).result = 0 ∧
          (solver (lp_build ops dimen sqrtQ q dd)).status = GLP_OPT) →
        set_correction ops dimen sqrtQ q dd solver prior = none)) ∧
    (prior = none →
      ((set_correction ops dimen sqrtQ q dd solver prior).isSome = true ↔
        q.variance ≠ 0 ∧ (solver (lp_build ops dimen sqrtQ q dd)).result = 0 ∧
          (solver (lp_build ops dimen sqrtQ q dd)).status = GLP_OPT)) := by
  refine ⟨?_, ?_, ?_⟩
  · intro h
    simp only [set_correction, if_pos h]
  · intro h
    refine ⟨?_, ?_⟩
    · intro hopt
      simp only [set_correction, if_neg h, if_pos hopt]
    · intro hopt
      simp only [set_correction, if_neg h, if_neg hopt]
  · rintro rfl
    by_cases h : q.variance = 0
    · simp only [set_correction, if_pos h, Option.isSome_none]
      constructor
      · intro hx; exact absurd hx Bool.false_ne_true
      · intro hcon; exact absurd h hcon.1
    · by_cases hopt : (solver (lp_build ops dimen sqrtQ q dd)).result = 0 ∧
        (solver (lp_build ops dimen sqrtQ q dd)).status = GLP_OPT
      · simp only [set_correction, if_neg h, if_pos hopt, Option.isSome_some]
        simp [h, hopt]
      · simp only [set_correction, if_neg h, if_neg hopt, Option.isSome_none]
        constructor
        · intro hx; exact absurd hx Bool.false_ne_true
        · intro hcon; exact absurd ⟨hcon.2.1, hcon.2.2⟩ hopt

theorem set_correction_absent_w :
    set_correction unit_ops 1 (fun x => x) (qvar_t.mk 0 0 1) []
      (fun _ => { result := 0, status := 5, primal := fun _ => 2 }) none =
      some [2, 2] :=
  (((set_correction_absent unit_ops 1 (fun x => x) (qvar_t.mk 0 0 1) []
      (fun _ => { result := 0, status := 5, primal := fun _ => 2 }) none).2.1
      (by decide)).1 ⟨rfl, rfl⟩).trans (by decide)

/-- C4 (code-bug exhibit): in the LP built for a 2-dimensional leaf with
one observation on every side, the first emitted constraint row has
exactly the claimed shape (`linear_combination + slack_pos - slack_neg =
observed mean`, zero elsewhere), but the third emitted row (dimension 1,
low side) carries a stray +1 at column 8 — the positive-slack column of
the earlier (dimension 0, high) row — where the claimed shape requires
0.  Line 253 of the source resets column `dimen+2+d+dimen` instead of
the column `dimen+2+d+2*dimen` that line 248 had set, so the high-side
positive-slack coefficient of every high row leaks into all rows emitted
after it. -/
theorem lp_constraint_row_leak :
    st_c4.constraints.length = 4 ∧
    (st_c4.constraints.getD 0 default).dim = 0 ∧
    (st_c4.constraints.getD 0 default).low = true ∧
    ((List.range (nCol 2 + 1)).all (fun j =>
      decide ((st_c4.constraints.getD 0 default).coeffs.getD j 0 =
        claimed_coeff unit_ops 2 dd_c4 0 true j)) = true) ∧
    (st_c4.constraints.getD 2 default).dim = 1 ∧
    (st_c4.constraints.getD 2 default).low = true ∧
    (st_c4.constraints.getD 2 default).rhs = 5 ∧
    (st_c4.constraints.getD 2 default).coeffs.getD 8 0 = 1 ∧
    claimed_coeff unit_ops 2 dd_c4 1 true 8 = 0 ∧
    slack_pos_col 2 0 false = 8 := by
  decide

end LP

end

end prlearn
